import Mathlib

/-!
# Verification of the scrubby redaction engine

Shallow embedding of `src/redactor.rs`, `src/detectors.rs` and the data
model of `src/lib.rs` from the scrubby repository.  Text is modelled as
`List Char`.  The five regular expressions of the source are embedded as
explicit leftmost-first matchers with the exact greedy/backtracking
semantics of the `regex` crate.  The crate's `\b` and `\d` are Unicode
classes (`\w` contains Alphabetic, Nd and Pc characters; `\d` is
`\p{Nd}`); the embedding models their restrictions to ASCII,
`[A-Za-z0-9_]` and `[0-9]`, on which the two agree (the remaining
classes of the five patterns are explicit ASCII ranges already).
Theorems that quantify over otherwise unconstrained documents therefore
carry the hypothesis that the document is ASCII (every character below
`U+0080`): on that domain the embedding coincides with the source, while
on non-ASCII text the source's Unicode word boundaries and digits
diverge from this model.

The entropy threshold test `shannon_entropy(s) >= 3.5` of the source is
embedded twice: once as the real-valued function `shannon_entropy`
mirroring the floating-point loop of `detectors.rs`, and once as the
exact natural-number inequality `entropyGE35` used inside the executable
pipeline; the theorem `entropyGE35_iff` proves the two agree.
-/

namespace Scrubby

/-- ASCII decimal digit `[0-9]`: the restriction to ASCII of the
`\d = \p{Nd}` class of `IPV4_RE` (and of the explicit `[0-9]` ranges of
the other patterns).  On ASCII text the crate's `\d` and this class
coincide; Unicode decimal digits such as `U+0663` are outside the model. -/
def isDigitC (c : Char) : Bool := 48 ≤ c.toNat && c.toNat ≤ 57

/-- ASCII uppercase letter. -/
def isUpperC (c : Char) : Bool := 65 ≤ c.toNat && c.toNat ≤ 90

/-- ASCII lowercase letter. -/
def isLowerC (c : Char) : Bool := 97 ≤ c.toNat && c.toNat ≤ 122

/-- ASCII letter, the `[A-Za-z]` class (the TLD class of `EMAIL_RE`). -/
def isLetterC (c : Char) : Bool := isUpperC c || isLowerC c

/-- ASCII alphanumeric, `[A-Za-z0-9]`. -/
def isAlnumC (c : Char) : Bool := isLetterC c || isDigitC c

/-- Word character for `\b`, restricted to ASCII: `[A-Za-z0-9_]` is the
intersection with ASCII of the regex crate's Unicode `\w` (which also
contains non-ASCII Alphabetic, Nd and Pc characters).  On ASCII text the
crate's Unicode word boundary and the `\b` built from this class agree. -/
def isWordChar (c : Char) : Bool := isAlnumC c || c == '_'

/-- The local-part class of `EMAIL_RE`: `[A-Za-z0-9._%+-]`. -/
def isEmailLocal (c : Char) : Bool :=
  isAlnumC c || c == '.' || c == '_' || c == '%' || c == '+' || c == '-'

/-- The domain class of `EMAIL_RE`: `[A-Za-z0-9.-]` (no underscore). -/
def isEmailDomain (c : Char) : Bool := isAlnumC c || c == '.' || c == '-'

/-- Hexadecimal digit, `[0-9a-fA-F]` of `UUID_V4_RE`. -/
def isHexChar (c : Char) : Bool :=
  isDigitC c || (97 ≤ c.toNat && c.toNat ≤ 102) || (65 ≤ c.toNat && c.toNat ≤ 70)

/-- URL-safe base64 class `[A-Za-z0-9_-]` of `JWT_RE` and `TOKEN_CANDIDATE_RE`. -/
def isB64 (c : Char) : Bool := isAlnumC c || c == '_' || c == '-'

/-- Word-ness of an optional character; absence of a character
(string edge) counts as non-word for `\b`. -/
def optWord : Option Char → Bool
  | none => false
  | some c => isWordChar c

/-- `\b` at the start of the suffix `cs`, whose predecessor character is
`prev` (`none` at the start of the text). -/
def bStart (prev : Option Char) (cs : List Char) : Bool :=
  optWord prev != optWord cs.head?

/-- Word-ness of the character at index `i` of `cs` (false past the end). -/
def wordAt (cs : List Char) (i : Nat) : Bool := optWord (cs.get? i)

/-- Length of the maximal run of characters satisfying `p` at the head. -/
def runLen (p : Char → Bool) (cs : List Char) : Nat := (cs.takeWhile p).length

/-- `\b` holds immediately after a match that ends in a word character,
i.e. the next character is absent or a non-word character. -/
def bAfterWord (cs : List Char) : Bool := !optWord cs.head?

/-- Email matcher at the head of `cs` (predecessor `prev`):
`\b[A-Za-z0-9._%+-]+@[A-Za-z0-9.-]+\.[A-Za-z]{2,}\b` with the
leftmost-first greedy/backtracking semantics of the `regex` crate.
Returns the match length.  The domain split `emailSplit` searches the
rightmost `.` inside the greedy `[A-Za-z0-9.-]+` run that is followed by
two-or-more letters and a trailing `\b`. -/
def emailSplit (after : List Char) : Nat → Option Nat
  | 0 => none
  | dl + 1 =>
    if after.get? (dl + 1) = some '.' then
      let t := runLen isLetterC (after.drop (dl + 2))
      if 2 ≤ t && bAfterWord (after.drop (dl + 2 + t)) then
        some (dl + 2 + t)
      else emailSplit after dl
    else emailSplit after dl

def emailAt (prev : Option Char) (cs : List Char) : Option Nat :=
  if bStart prev cs then
    let l := runLen isEmailLocal cs
    if 1 ≤ l && (cs.get? l == some '@') then
      let after := cs.drop (l + 1)
      let d := runLen isEmailDomain after
      if 1 ≤ d then
        match emailSplit after (d - 1) with
        | some dom => some (l + 1 + dom)
        | none => none
      else none
    else none
  else none

/-- Candidate octet lengths at the head of `cs`, in the preference order
of the alternation `25[0-5]|2[0-4]\d|1?\d?\d` of `IPV4_RE`:
a three-digit candidate (value 100–255) first, then two digits, then one. -/
def octetCands (cs : List Char) : List Nat :=
  let three :=
    match cs with
    | c1 :: c2 :: c3 :: _ =>
      if isDigitC c1 && isDigitC c2 && isDigitC c3 &&
         (c1 == '1' || (c1 == '2' && (c2 == '0' || c2 == '1' || c2 == '2' ||
            c2 == '3' || c2 == '4')) ||
          (c1 == '2' && c2 == '5' && (c3 == '0' || c3 == '1' || c3 == '2' ||
            c3 == '3' || c3 == '4' || c3 == '5')))
      then [3] else []
    | _ => []
  let two :=
    match cs with
    | c1 :: c2 :: _ => if isDigitC c1 && isDigitC c2 then [2] else []
    | _ => []
  let one :=
    match cs with
    | c1 :: _ => if isDigitC c1 then [1] else []
    | _ => []
  three ++ two ++ one

/-- Backtracking search over the four octets of `IPV4_RE`.  `rem` is the
number of octets still to match (the last one is followed by `\b`, the
others by a literal `.`). -/
def ipv4Go (cs : List Char) (rem : Nat) : Option Nat :=
  match rem with
  | 0 => none
  | 1 =>
    (octetCands cs).firstM fun l =>
      if bAfterWord (cs.drop l) then some l else none
  | rem' + 2 =>
    (octetCands cs).firstM fun l =>
      if cs.get? l = some '.' then
        match ipv4Go (cs.drop (l + 1)) (rem' + 1) with
        | some r => some (l + 1 + r)
        | none => none
      else none

def ipv4At (prev : Option Char) (cs : List Char) : Option Nat :=
  if bStart prev cs then ipv4Go cs 4 else none

/-- Consume exactly `n` hexadecimal characters, returning the remainder. -/
def hexTake : Nat → List Char → Option (List Char)
  | 0, cs => some cs
  | _ + 1, [] => none
  | n + 1, c :: cs => if isHexChar c then hexTake n cs else none

/-- Consume one expected character. -/
def expectC (e : Char) : List Char → Option (List Char)
  | [] => none
  | c :: cs => if c == e then some cs else none

/-- UUIDv4 matcher:
`\b[0-9a-fA-F]{8}-[0-9a-fA-F]{4}-4[0-9a-fA-F]{3}-[89abAB][0-9a-fA-F]{3}-[0-9a-fA-F]{12}\b`.
The shape is fixed (36 characters), so no backtracking is needed. -/
def uuidAt (prev : Option Char) (cs : List Char) : Option Nat :=
  if bStart prev cs then
    match hexTake 8 cs with
    | none => none
    | some r1 =>
      match expectC '-' r1 with
      | none => none
      | some r2 =>
        match hexTake 4 r2 with
        | none => none
        | some r3 =>
          match expectC '-' r3 with
          | none => none
          | some r4 =>
            match expectC '4' r4 with
            | none => none
            | some r5 =>
              match hexTake 3 r5 with
              | none => none
              | some r6 =>
                match expectC '-' r6 with
                | none => none
                | some r7 =>
                  match r7 with
                  | [] => none
                  | v :: r8 =>
                    if v == '8' || v == '9' || v == 'a' || v == 'b' ||
                       v == 'A' || v == 'B' then
                      match hexTake 3 r8 with
                      | none => none
                      | some r9 =>
                        match expectC '-' r9 with
                        | none => none
                        | some r10 =>
                          match hexTake 12 r10 with
                          | none => none
                          | some r11 =>
                            if bAfterWord r11 then some 36 else none
                    else none
  else none

/-- Longest cut `k` with `minl ≤ k ≤ tryk` of the maximal `[A-Za-z0-9_-]`
run at the head of `rest` such that `\b` holds between positions `k-1`
and `k`: the backtracking of a trailing `\b` after a greedy run. -/
def findCut (rest : List Char) (minl : Nat) : Nat → Option Nat
  | 0 => none
  | k + 1 =>
    if minl ≤ k + 1 && (wordAt rest k != wordAt rest (k + 1)) then
      some (k + 1)
    else findCut rest minl k

/-- JWT-shape matcher: `\b[A-Za-z0-9_-]+\.[A-Za-z0-9_-]+\.[A-Za-z0-9_-]+\b`.
The first two segments are forced (no `.` in the class); the third
backtracks its end to satisfy the trailing `\b`. -/
def jwtAt (prev : Option Char) (cs : List Char) : Option Nat :=
  if bStart prev cs then
    let s1 := runLen isB64 cs
    if 1 ≤ s1 && (cs.get? s1 == some '.') then
      let r2 := cs.drop (s1 + 1)
      let s2 := runLen isB64 r2
      if 1 ≤ s2 && (r2.get? s2 == some '.') then
        let r3 := r2.drop (s2 + 1)
        match findCut r3 1 (runLen isB64 r3) with
        | some s3 => some (s1 + 1 + s2 + 1 + s3)
        | none => none
      else none
    else none
  else none

/-- Token-candidate matcher: `\b[A-Za-z0-9_-]{32,}\b`. -/
def tokenAt (prev : Option Char) (cs : List Char) : Option Nat :=
  if bStart prev cs then findCut cs 32 (runLen isB64 cs)
  else none

/-- `find_iter` of the `regex` crate: scan left to right, emit the
leftmost match, resume immediately after it.  Spans are `(start, end)`
character indices (half-open).  `fuel` is a structural-termination
device; it is always called with `fuel > cs.length`, which the scan can
never exhaust since every step consumes at least one character. -/
def findIterF (mat : Option Char → List Char → Option Nat) :
    Nat → Option Char → List Char → Nat → List (Nat × Nat)
  | 0, _, _, _ => []
  | _ + 1, _, [], _ => []
  | fuel + 1, prev, c :: cs, pos =>
    match mat prev (c :: cs) with
    | some n =>
      if 1 ≤ n && n ≤ cs.length + 1 then
        (pos, pos + n) ::
          findIterF mat fuel ((c :: cs).get? (n - 1)) ((c :: cs).drop n) (pos + n)
      else findIterF mat fuel (some c) cs (pos + 1)
    | none => findIterF mat fuel (some c) cs (pos + 1)

/-- All matches of `mat` in `input`, as `(start, end)` character spans. -/
def findIter (mat : Option Char → List Char → Option Nat)
    (input : List Char) : List (Nat × Nat) :=
  findIterF mat (input.length + 1) none input 0

/-- The slice `input[a..b]` (character indices). -/
def sliceCL (input : List Char) (a b : Nat) : List Char :=
  (input.take b).drop a

/-- UTF-8 encoding of one character (byte values as naturals). -/
def charUtf8 (c : Char) : List Nat :=
  let v := c.toNat
  if v < 128 then [v]
  else if v < 2048 then [192 + v / 64, 128 + v % 64]
  else if v < 65536 then
    [224 + v / 4096, 128 + (v / 64) % 64, 128 + v % 64]
  else
    [240 + v / 262144, 128 + (v / 4096) % 64, 128 + (v / 64) % 64, 128 + v % 64]

/-- UTF-8 byte sequence of a text, as in `s.bytes()` of the source. -/
def utf8Bytes (s : List Char) : List Nat := (s.map charUtf8).flatten

/-- Number of UTF-8 bytes of a text (`s.len()` on a Rust `&str`). -/
def utf8Len (s : List Char) : Nat := (utf8Bytes s).length

/-- Byte offset of character index `i` of `s` (Rust byte offsets from
`m.start()` / `m.end()` are UTF-8 offsets). -/
def byteOff (s : List Char) (i : Nat) : Nat := utf8Len (s.take i)

/-- Exact-arithmetic form of the source's threshold test
`shannon_entropy(s) >= 3.5`.  Writing `n` for the byte length and `c_b`
for the frequency of byte `b`, the entropy `log2 n - (1/n)*Σ c_b*log2 c_b`
is `≥ 7/2` iff `2^(7n) * Π c_b^(2 c_b) ≤ n^(2n)`; the theorem
`entropyGE35_iff` below proves this equal to the real-valued comparison
(the empty string takes the early-return branch of `shannon_entropy`,
whose value `0` fails the test). -/
def entropyGE35 (s : List Char) : Bool :=
  let bs := utf8Bytes s
  let n := bs.length
  if n = 0 then false
  else
    2 ^ (7 * n) *
      ((List.range 256).map (fun b => (bs.count b) ^ (2 * bs.count b))).prod
    ≤ n ^ (2 * n)

/-- `replacement.trim_end_matches('>')` of the source. -/
def trimEndGt (l : List Char) : List Char :=
  (l.reverse.dropWhile (fun c => c == '>')).reverse

/-- The numbered placeholder pushed in the `stable` branch of
`replace_with_count`: `format!("{}_{}", replacement.trim_end_matches('>'), counter)`
followed by `push('>')`. -/
def stablePH (replacement : List Char) (counter : Nat) : List Char :=
  trimEndGt replacement ++ '_' :: (Nat.repr counter).data ++ ['>']

/-- The output-building loop of `replace_with_count` over the match list
`ms` of its regex: copy `input[last..start]`, push the (fixed or
numbered) placeholder, advance `last` to the match end; finally push
`input[last..]`.  Returns `(out, count, counter)`. -/
def spliceCount (input : List Char) (replacement : List Char) (stable : Bool) :
    List (Nat × Nat) → Nat → Nat → List Char × Nat × Nat
  | [], last, counter => (sliceCL input last input.length, 0, counter)
  | (s, e) :: ms, last, counter =>
    if stable then
      let r := spliceCount input replacement stable ms e (counter + 1)
      (sliceCL input last s ++ stablePH replacement (counter + 1) ++ r.1,
        r.2.1 + 1, r.2.2)
    else
      let r := spliceCount input replacement stable ms e counter
      (sliceCL input last s ++ replacement ++ r.1, r.2.1 + 1, r.2.2)

/-- `replace_with_count` of `redactor.rs`, for the matcher `mat`
embedding the pass's regex. -/
def replace_with_count (input : List Char)
    (mat : Option Char → List Char → Option Nat)
    (replacement : List Char) (stable : Bool) (counter : Nat) :
    List Char × Nat × Nat :=
  spliceCount input replacement stable (findIter mat input) 0 counter

/-- The output-building loop of `replace_tokens`: for each candidate span
the entropy test is re-applied to the matched slice; qualifying spans are
replaced (numbered iff `stable`), others are copied verbatim, and `last`
advances past the candidate either way. -/
def spliceTokens (input : List Char) (stable : Bool) :
    List (Nat × Nat) → Nat → Nat → List Char × Nat × Nat
  | [], last, counter => (sliceCL input last input.length, 0, counter)
  | (s, e) :: ms, last, counter =>
    if entropyGE35 (sliceCL input s e) then
      if stable then
        let r := spliceTokens input stable ms e (counter + 1)
        (sliceCL input last s ++
          ('<' :: 'T' :: 'O' :: 'K' :: 'E' :: 'N' :: '_' ::
            (Nat.repr (counter + 1)).data ++ ['>']) ++ r.1,
          r.2.1 + 1, r.2.2)
      else
        let r := spliceTokens input stable ms e counter
        (sliceCL input last s ++ "<TOKEN>".data ++ r.1, r.2.1 + 1, r.2.2)
    else
      let r := spliceTokens input stable ms e counter
      (sliceCL input last s ++ sliceCL input s e ++ r.1, r.2.1, r.2.2)

/-- `replace_tokens` of `redactor.rs`. -/
def replace_tokens (input : List Char) (stable : Bool) (counter : Nat) :
    List Char × Nat × Nat :=
  spliceTokens input stable (findIter tokenAt input) 0 counter

/-- `RedactionCounts` of `redactor.rs`. -/
structure RedactionCounts where
  emails : Nat
  ips : Nat
  uuids : Nat
  jwts : Nat
  tokens : Nat
  deriving Repr, DecidableEq

/-- `RedactionResult` of `redactor.rs`. -/
structure RedactionResult where
  text : List Char
  counts : RedactionCounts
  deriving Repr, DecidableEq

/-- `ScrubOptions` of `lib.rs`. -/
structure ScrubOptions where
  stable_placeholders : Bool
  deriving Repr, DecidableEq

/-- `Detections` of `detectors.rs`: per-category byte-offset spans. -/
structure Detections where
  emails : List (Nat × Nat)
  ips : List (Nat × Nat)
  uuids : List (Nat × Nat)
  jwts : List (Nat × Nat)
  tokens : List (Nat × Nat)
  deriving Repr, DecidableEq

/-- `redact` of `redactor.rs`: five sequential passes, each consuming the
previous pass's output, every per-category counter starting at 0.  The
`Detections` argument is received but never read, exactly as the
`_detections` parameter of the source. -/
def redact (input : List Char) (_detections : Detections) (options : ScrubOptions) :
    RedactionResult :=
  let p1 := replace_with_count input emailAt "<EMAIL>".data
    options.stable_placeholders 0
  let p2 := replace_with_count p1.1 ipv4At "<IP>".data
    options.stable_placeholders 0
  let p3 := replace_with_count p2.1 uuidAt "<UUID>".data
    options.stable_placeholders 0
  let p4 := replace_with_count p3.1 jwtAt "<JWT>".data
    options.stable_placeholders 0
  let p5 := replace_tokens p4.1 options.stable_placeholders 0
  { text := p5.1,
    counts :=
      { emails := p1.2.1, ips := p2.2.1, uuids := p3.2.1,
        jwts := p4.2.1, tokens := p5.2.1 } }

/-- Character spans to byte-offset spans. -/
def toByteSpans (s : List Char) (ms : List (Nat × Nat)) : List (Nat × Nat) :=
  ms.map (fun m => (byteOff s m.1, byteOff s m.2))

/-- `detect` of `detectors.rs`: the read-only scan.  Token candidates are
kept only when the entropy test passes. -/
def detect (input : List Char) : Detections :=
  { emails := toByteSpans input (findIter emailAt input),
    ips := toByteSpans input (findIter ipv4At input),
    uuids := toByteSpans input (findIter uuidAt input),
    jwts := toByteSpans input (findIter jwtAt input),
    tokens := toByteSpans input
      ((findIter tokenAt input).filter
        (fun m => entropyGE35 (sliceCL input m.1 m.2))) }

/-- `shannon_entropy` of `detectors.rs`, with the floating-point numbers
of the source modelled as reals: early return `0` on the empty string,
then the accumulator loop `entropy -= p * p.log2()` over the 256
byte-frequency counts, skipping zero counts. -/
noncomputable def shannon_entropy (s : List Char) : ℝ :=
  let bs := utf8Bytes s
  let n := bs.length
  if n = 0 then 0
  else
    ((List.range 256).map (fun b => bs.count b)).foldl
      (fun (e : ℝ) (c : ℕ) =>
        if c = 0 then e
        else e - ((c : ℝ) / (n : ℝ)) * Real.logb 2 ((c : ℝ) / (n : ℝ))) 0

/-- Modelled from the spec (§4.3): with `stable_placeholders = false`,
"emit one fixed literal placeholder per category for every occurrence",
copying the text between matches verbatim. -/
def fixedSplice (input repl : List Char) : List (Nat × Nat) → Nat → List Char
  | [], last => sliceCL input last input.length
  | (s, e) :: ms, last =>
    sliceCL input last s ++ repl ++ fixedSplice input repl ms e

/-- Modelled from the spec (§3, §4.3): with `stable_placeholders = true`,
the category's counter is incremented once per replacement in
left-to-right order and the emitted placeholder carries the 1-based
counter value. -/
def numberedSplice (input repl : List Char) :
    List (Nat × Nat) → Nat → Nat → List Char
  | [], last, _ => sliceCL input last input.length
  | (s, e) :: ms, last, k =>
    sliceCL input last s ++ stablePH repl (k + 1) ++
      numberedSplice input repl ms e (k + 1)

/-- The character preceding position `i` of `cs`, when the scan of `cs`
itself started with predecessor `prev`. -/
def prevO (prev : Option Char) (cs : List Char) (i : Nat) : Option Char :=
  if i = 0 then prev else cs.get? (i - 1)

/-- Spans are in-bounds for `[lo, hi]`, nonempty, and chained left to
right: the invariant `find_iter` guarantees for the match list. -/
def SpansOK (lo hi : Nat) : List (Nat × Nat) → Prop
  | [] => True
  | (s, e) :: ms => lo ≤ s ∧ s < e ∧ e ≤ hi ∧ SpansOK e hi ms

/-- Every character of `W` satisfies the class test `p`. -/
def AllClass (p : Char → Bool) (W : List Char) : Prop := ∀ c ∈ W, p c = true

/-- First-order shape of a token-candidate match. -/
def TokWindow (pw : Bool) (W : List Char) (nw : Bool) : Prop :=
  32 ≤ W.length ∧ AllClass isB64 W ∧
    pw ≠ optWord W.head? ∧
    ∃ cl, W.getLast? = some cl ∧ isWordChar cl ≠ nw


/-- Position `i` is covered by one of the spans. -/
def Covers (ms : List (Nat × Nat)) (i : Nat) : Prop :=
  ∃ m ∈ ms, m.1 ≤ i ∧ i < m.2

/-- Word-boundary facts at the edges of every span, as the five embedded
matchers guarantee for their matches (and as the source's regexes
guarantee on ASCII text, where every non-class character is non-word):
a word-ness flip at the start, a word character at the last position, a
non-word follower. -/
def MatchEdges (X : List Char) : List (Nat × Nat) → Prop
  | [] => True
  | (s, e) :: ms =>
    optWord (prevO none X s) ≠ wordAt X s ∧ wordAt X (e - 1) = true ∧
      wordAt X e = false ∧ MatchEdges X ms

/-- The placeholder text a counting pass emits for counter value `k`. -/
def phText (repl : List Char) (stable : Bool) (k : Nat) : List Char :=
  if stable then stablePH repl k else repl

/-- The text assembled by a replacement pass: alternating input slices
and placeholders (the `k`-th replacement gets counter `c + k`). -/
def outSplice (X repl : List Char) (stable : Bool) :
    List (Nat × Nat) → Nat → Nat → List Char
  | [], last, _ => sliceCL X last X.length
  | (s, e) :: ms, last, c =>
    sliceCL X last s ++ phText repl stable (c + 1) ++
      outSplice X repl stable ms e (c + 1)

/-- Word-ness of the character preceding a split point: that of the last
character of the prefix, or the ambient value `p` for an empty prefix. -/
def pwExt (p : Bool) (B1 : List Char) : Bool :=
  match B1.getLast? with
  | none => p
  | some c => isWordChar c

/-- The matcher fails at every position of `T` (no match anywhere). -/
def FailsAll (mat : Option Char → List Char → Option Nat)
    (T : List Char) : Prop :=
  ∀ i, mat (prevO none T i) (T.drop i) = none

theorem sliceCL_full (input : List Char) : sliceCL input 0 input.length = input := by
  simp [sliceCL]

theorem sliceCL_refl (input : List Char) (a : Nat) : sliceCL input a a = [] := by
  apply List.drop_eq_nil_of_le
  simp [List.length_take]

theorem sliceCL_append (input : List Char) (a b c : Nat)
    (hab : a ≤ b) (hbc : b ≤ c) (hc : c ≤ input.length) :
    sliceCL input a b ++ sliceCL input b c = sliceCL input a c := by
  unfold sliceCL
  have htt : input.take b = (input.take c).take b := by
    rw [List.take_take, Nat.min_eq_left hbc]
  rw [htt]
  have hlen : ((input.take c).take b).length = b := by
    simp [List.length_take]
    omega
  calc ((input.take c).take b).drop a ++ (input.take c).drop b
      = ((input.take c).take b).drop a ++
          ((input.take c).drop b).drop (a - ((input.take c).take b).length) := by
        rw [hlen, Nat.sub_eq_zero_of_le hab, List.drop_zero]
    _ = (((input.take c).take b) ++ (input.take c).drop b).drop a := by
        rw [List.drop_append_eq_append_drop]
    _ = (input.take c).drop a := by rw [List.take_append_drop]

theorem findIterF_zero (mat : Option Char → List Char → Option Nat)
    (prev : Option Char) (cs : List Char) (pos : Nat) :
    findIterF mat 0 prev cs pos = [] := rfl

theorem findIterF_nil_input (mat : Option Char → List Char → Option Nat)
    (fuel : Nat) (prev : Option Char) (pos : Nat) :
    findIterF mat (fuel + 1) prev [] pos = [] := rfl

theorem findIterF_cons_none (mat : Option Char → List Char → Option Nat)
    (fuel : Nat) (prev : Option Char) (c : Char) (cs : List Char) (pos : Nat)
    (h : mat prev (c :: cs) = none) :
    findIterF mat (fuel + 1) prev (c :: cs) pos =
      findIterF mat fuel (some c) cs (pos + 1) := by
  simp [findIterF, h]

theorem findIterF_cons_hit (mat : Option Char → List Char → Option Nat)
    (fuel : Nat) (prev : Option Char) (c : Char) (cs : List Char) (pos n : Nat)
    (h : mat prev (c :: cs) = some n) (h1 : 1 ≤ n) (h2 : n ≤ cs.length + 1) :
    findIterF mat (fuel + 1) prev (c :: cs) pos =
      (pos, pos + n) ::
        findIterF mat fuel ((c :: cs).get? (n - 1)) ((c :: cs).drop n) (pos + n) := by
  simp [findIterF, h, h1, h2]

theorem findIterF_cons_bad (mat : Option Char → List Char → Option Nat)
    (fuel : Nat) (prev : Option Char) (c : Char) (cs : List Char) (pos n : Nat)
    (h : mat prev (c :: cs) = some n) (hbad : ¬(1 ≤ n ∧ n ≤ cs.length + 1)) :
    findIterF mat (fuel + 1) prev (c :: cs) pos =
      findIterF mat fuel (some c) cs (pos + 1) := by
  have : (decide (1 ≤ n) && decide (n ≤ cs.length + 1)) = false := by
    rcases Nat.lt_or_ge n 1 with h' | h'
    · simp; omega
    · rcases Nat.lt_or_ge (cs.length + 1) n with h'' | h''
      · simp; omega
      · exact absurd ⟨h', h''⟩ hbad
  simp [findIterF, h, this]

theorem spansOK_mono {lo lo' hi : Nat} :
    ∀ {ms : List (Nat × Nat)}, lo ≤ lo' → SpansOK lo' hi ms → SpansOK lo hi ms := by
  intro ms
  match ms with
  | [] => intro _ _; trivial
  | (s, e) :: ms =>
    intro h hok
    obtain ⟨h1, h2, h3, h4⟩ := hok
    exact ⟨le_trans h h1, h2, h3, h4⟩

theorem findIterF_spansOK (mat : Option Char → List Char → Option Nat) :
    ∀ (fuel : Nat) (cs : List Char) (prev : Option Char) (pos : Nat),
      SpansOK pos (pos + cs.length) (findIterF mat fuel prev cs pos) := by
  intro fuel
  induction fuel with
  | zero => intro cs prev pos; simp [findIterF, SpansOK]
  | succ fuel ih =>
    intro cs prev pos
    match cs with
    | [] => simp [findIterF, SpansOK]
    | c :: cs' =>
      cases hm : mat prev (c :: cs') with
      | none =>
        rw [findIterF_cons_none mat fuel prev c cs' pos hm]
        have h := ih cs' (some c) (pos + 1)
        have heq : pos + 1 + cs'.length = pos + (c :: cs').length := by
          simp; omega
        rw [heq] at h
        exact spansOK_mono (by omega) h
      | some n =>
        by_cases hcond : 1 ≤ n ∧ n ≤ cs'.length + 1
        · obtain ⟨hn1, hn2⟩ := hcond
          rw [findIterF_cons_hit mat fuel prev c cs' pos n hm hn1 hn2]
          have h := ih ((c :: cs').drop n) ((c :: cs').get? (n - 1)) (pos + n)
          have hlen : pos + n + ((c :: cs').drop n).length =
              pos + (c :: cs').length := by
            rw [List.length_drop]
            simp
            omega
          rw [hlen] at h
          refine ⟨le_refl _, by omega, ?_, h⟩
          simp
          omega
        · rw [findIterF_cons_bad mat fuel prev c cs' pos n hm hcond]
          have h := ih cs' (some c) (pos + 1)
          have heq : pos + 1 + cs'.length = pos + (c :: cs').length := by
            simp; omega
          rw [heq] at h
          exact spansOK_mono (by omega) h

theorem findIter_spansOK (mat : Option Char → List Char → Option Nat)
    (input : List Char) : SpansOK 0 input.length (findIter mat input) := by
  have h := findIterF_spansOK mat (input.length + 1) input none 0
  simpa using h

theorem findIterF_nil (mat : Option Char → List Char → Option Nat) :
    ∀ (fuel : Nat) (cs : List Char) (prev : Option Char) (pos : Nat),
      (∀ i, mat (prevO prev cs i) (cs.drop i) = none) →
      findIterF mat fuel prev cs pos = [] := by
  intro fuel
  induction fuel with
  | zero => intro cs prev pos _; rfl
  | succ fuel ih =>
    intro cs prev pos h
    match cs with
    | [] => rfl
    | c :: cs' =>
      have h0 := h 0
      simp [prevO] at h0
      simp only [findIterF, h0]
      apply ih
      intro i
      have hi := h (i + 1)
      match i with
      | 0 =>
        simp only [prevO, if_pos rfl] at hi ⊢
        simpa using hi
      | i + 1 =>
        simp only [prevO, if_neg (Nat.succ_ne_zero _), if_neg (Nat.succ_ne_zero _)] at hi ⊢
        simpa using hi

theorem findIter_nil (mat : Option Char → List Char → Option Nat)
    (input : List Char)
    (h : ∀ i, mat (prevO none input i) (input.drop i) = none) :
    findIter mat input = [] :=
  findIterF_nil mat (input.length + 1) input none 0 h

theorem spliceTokens_keep (input : List Char) (st : Bool) :
    ∀ (ms : List (Nat × Nat)) (last c0 : Nat),
      SpansOK last input.length ms →
      (∀ m ∈ ms, entropyGE35 (sliceCL input m.1 m.2) = false) →
      spliceTokens input st ms last c0 =
        (sliceCL input last input.length, 0, c0) := by
  intro ms
  induction ms with
  | nil => intro last c0 _ _; rfl
  | cons m ms ih =>
    intro last c0 hok hg
    obtain ⟨s, e⟩ := m
    obtain ⟨h1, h2, h3, h4⟩ := hok
    have hge := hg (s, e) (List.mem_cons_self _ _)
    simp only at hge
    simp only [spliceTokens, hge, Bool.false_eq_true, if_false,
      ih e c0 h4 (fun m hm => hg m (List.mem_cons_of_mem _ hm))]
    rw [sliceCL_append input last s e (by omega) (by omega) (by omega),
      sliceCL_append input last e input.length (by omega) (by omega) (by omega)]

/-! ## Basic lemmas about the splice loops -/

theorem spliceCount_false (input repl : List Char) :
    ∀ (ms : List (Nat × Nat)) (last c0 : Nat),
      spliceCount input repl false ms last c0 =
        (fixedSplice input repl ms last, ms.length, c0) := by
  intro ms
  induction ms with
  | nil => intro last c0; rfl
  | cons m ms ih =>
    intro last c0
    obtain ⟨s, e⟩ := m
    simp [spliceCount, fixedSplice, ih]

theorem spliceCount_true (input repl : List Char) :
    ∀ (ms : List (Nat × Nat)) (last c0 : Nat),
      spliceCount input repl true ms last c0 =
        (numberedSplice input repl ms last c0, ms.length, c0 + ms.length) := by
  intro ms
  induction ms with
  | nil => intro last c0; simp [spliceCount, numberedSplice]
  | cons m ms ih =>
    intro last c0
    obtain ⟨s, e⟩ := m
    simp [spliceCount, numberedSplice, ih]
    omega

/-! ## Claim theorems (first group) -/

/-- C10: the `redact` function's output is independent of its
`Detections` argument — each pass re-runs its own matcher on the
intermediate text and the passed-in detections are never read. -/
theorem redact_ignores_detections (input : List Char) (d1 d2 : Detections)
    (o : ScrubOptions) : redact input d1 o = redact input d2 o := rfl

/-- C5: with `stable_placeholders = false` every occurrence of a category
match is replaced by that category's single fixed literal placeholder
(and the counter is left untouched); in particular `"a@b.com"` redacts to
exactly `"<EMAIL>"` with `counts.emails == 1`. -/
theorem fixed_placeholders :
    (∀ (input : List Char) (mat : Option Char → List Char → Option Nat)
        (repl : List Char) (c0 : Nat),
      replace_with_count input mat repl false c0 =
        (fixedSplice input repl (findIter mat input) 0,
          (findIter mat input).length, c0)) ∧
    (∀ d : Detections,
      (redact "a@b.com".data d ⟨false⟩).text = "<EMAIL>".data ∧
      (redact "a@b.com".data d ⟨false⟩).counts.emails = 1) := by
  constructor
  · intro input mat repl c0
    exact spliceCount_false input repl (findIter mat input) 0 c0
  · intro d
    exact ⟨rfl, rfl⟩

/-- C4: with `stable_placeholders = true` each category's counter starts
at 1 (from the initial 0 of `redact`) and increments by exactly one per
replacement in left-to-right order of that category's pass; in
particular `"a@b.com a@b.com"` redacts to `"<EMAIL_1> <EMAIL_2>"` with
`counts.emails == 2`. -/
theorem stable_placeholder_numbering :
    (∀ (input : List Char) (mat : Option Char → List Char → Option Nat)
        (repl : List Char) (c0 : Nat),
      replace_with_count input mat repl true c0 =
        (numberedSplice input repl (findIter mat input) 0 c0,
          (findIter mat input).length, c0 + (findIter mat input).length)) ∧
    (∀ d : Detections,
      (redact "a@b.com a@b.com".data d ⟨true⟩).text = "<EMAIL_1> <EMAIL_2>".data ∧
      (redact "a@b.com a@b.com".data d ⟨true⟩).counts.emails = 2) := by
  constructor
  · intro input mat repl c0
    exact spliceCount_true input repl (findIter mat input) 0 c0
  · intro d
    exact ⟨rfl, rfl⟩

/-- C3: category precedence — on a document that is a single
boundary-delimited email-shaped string (the email matcher matches the
whole document) whose local part is a 32+-character high-entropy
base64url run, `redact` emits exactly one Email placeholder and the
Token count is 0: the Token pass runs on the Email pass's output and
never re-flags the replaced local part. -/
theorem category_precedence (lp dm : List Char) (d : Detections)
    (o : ScrubOptions)
    (hb64 : ∀ c ∈ lp, isB64 c = true) (hlen : 32 ≤ lp.length)
    (hent : (3.5 : ℝ) ≤ shannon_entropy lp)
    (hmatch : findIter emailAt (lp ++ '@' :: dm) =
      [(0, (lp ++ '@' :: dm).length)]) :
    (redact (lp ++ '@' :: dm) d o).counts.emails = 1 ∧
    (redact (lp ++ '@' :: dm) d o).counts.tokens = 0 ∧
    (redact (lp ++ '@' :: dm) d o).text =
      (if o.stable_placeholders then "<EMAIL_1>".data else "<EMAIL>".data) := by
  obtain ⟨st⟩ := o
  cases st with
  | false =>
    have hp1 : replace_with_count (lp ++ '@' :: dm) emailAt "<EMAIL>".data
        false 0 = ("<EMAIL>".data, 1, 0) := by
      unfold replace_with_count
      rw [hmatch]
      simp [spliceCount, sliceCL_refl]
    simp only [redact, hp1]
    refine ⟨by trivial, by decide, by decide⟩
  | true =>
    have hp1 : replace_with_count (lp ++ '@' :: dm) emailAt "<EMAIL>".data
        true 0 = ("<EMAIL_1>".data, 1, 1) := by
      unfold replace_with_count
      rw [hmatch]
      simp [spliceCount, sliceCL_refl]
      decide
    simp only [redact, hp1]
    refine ⟨by trivial, by decide, by decide⟩

/-! ## The entropy gate versus real Shannon entropy -/

theorem foldl_entropy_sub (f : ℕ → ℝ) :
    ∀ (l : List ℕ) (a : ℝ),
      l.foldl (fun e c => if c = 0 then e else e - f c) a =
        a - (l.map (fun c => if c = 0 then (0 : ℝ) else f c)).sum := by
  intro l
  induction l with
  | nil => intro a; simp
  | cons c l ih =>
    intro a
    by_cases hc : c = 0
    · simp only [List.foldl_cons, List.map_cons, List.sum_cons, if_pos hc]
      rw [ih]
      ring
    · simp only [List.foldl_cons, List.map_cons, List.sum_cons, if_neg hc]
      rw [ih]
      ring

theorem listRange_map_sum {M : Type*} [AddCommMonoid M] (f : ℕ → M) :
    ∀ k, ((List.range k).map f).sum = ∑ i in Finset.range k, f i := by
  intro k
  induction k with
  | zero => simp
  | succ k ih =>
    rw [List.range_succ, Finset.sum_range_succ, List.map_append,
      List.sum_append, ih]
    simp

theorem listRange_map_prod {M : Type*} [CommMonoid M] (f : ℕ → M) :
    ∀ k, ((List.range k).map f).prod = ∏ i in Finset.range k, f i := by
  intro k
  induction k with
  | zero => simp
  | succ k ih =>
    rw [List.range_succ, Finset.prod_range_succ, List.map_append,
      List.prod_append, ih]
    simp

theorem char_toNat_lt (c : Char) : c.toNat < 1114112 := by
  have h := c.valid
  rcases h with h | h
  · have h' : c.val.toNat < 55296 := h
    simp only [Char.toNat]
    omega
  · have h' : c.val.toNat < 1114112 := h.2
    simp only [Char.toNat]
    omega

theorem charUtf8_lt256 (c : Char) : ∀ b ∈ charUtf8 c, b < 256 := by
  have hv := char_toNat_lt c
  intro b hb
  simp only [charUtf8] at hb
  split_ifs at hb with h1 h2 h3
  · simp only [List.mem_singleton] at hb
    omega
  · simp only [List.mem_cons, List.mem_singleton, List.not_mem_nil, or_false] at hb
    rcases hb with rfl | rfl <;> omega
  · simp only [List.mem_cons, List.mem_singleton, List.not_mem_nil, or_false] at hb
    rcases hb with rfl | rfl | rfl <;> omega
  · simp only [List.mem_cons, List.mem_singleton, List.not_mem_nil, or_false] at hb
    rcases hb with rfl | rfl | rfl | rfl <;> omega

theorem utf8Bytes_lt256 (s : List Char) : ∀ b ∈ utf8Bytes s, b < 256 := by
  intro b hb
  unfold utf8Bytes at hb
  rw [List.mem_flatten] at hb
  obtain ⟨l, hl, hbl⟩ := hb
  rw [List.mem_map] at hl
  obtain ⟨c, _, rfl⟩ := hl
  exact charUtf8_lt256 c b hbl

theorem count_sum_256 (bs : List ℕ) (h : ∀ b ∈ bs, b < 256) :
    ∑ b in Finset.range 256, bs.count b = bs.length := by
  have hm := Multiset.sum_count_eq_card (s := Finset.range 256)
    (m := (bs : Multiset ℕ))
    (fun a ha => by
      rw [Finset.mem_range]
      exact h a (by simpa using ha))
  simpa using hm

theorem entropyGE35_iff (s : List Char) :
    entropyGE35 s = true ↔ (3.5 : ℝ) ≤ shannon_entropy s := by
  by_cases hn : (utf8Bytes s).length = 0
  · simp only [entropyGE35, shannon_entropy, hn, if_pos rfl]
    norm_num
  · have hb256 := utf8Bytes_lt256 s
    have hsum := count_sum_256 (utf8Bytes s) hb256
    set bs := utf8Bytes s with hbs
    set n := bs.length with hnn
    set c : ℕ → ℕ := fun b => bs.count b with hc
    have hn' : 0 < n := Nat.pos_of_ne_zero hn
    have hN : (0 : ℝ) < (n : ℝ) := by exact_mod_cast hn'
    have hNne : ((n : ℝ)) ≠ 0 := ne_of_gt hN
    -- the real-valued entropy as a closed sum
    have hH : shannon_entropy s =
        Real.logb 2 (n : ℝ) -
          (∑ b in Finset.range 256,
            (c b : ℝ) * Real.logb 2 (c b : ℝ)) / (n : ℝ) := by
      have h1 : shannon_entropy s =
          -(∑ b in Finset.range 256,
            (if c b = 0 then (0 : ℝ)
             else ((c b : ℝ) / (n : ℝ)) * Real.logb 2 ((c b : ℝ) / (n : ℝ)))) := by
        simp only [shannon_entropy, ← hbs, ← hnn, if_neg hn]
        rw [foldl_entropy_sub
          (fun k => ((k : ℝ) / (n : ℝ)) * Real.logb 2 ((k : ℝ) / (n : ℝ)))]
        rw [List.map_map, listRange_map_sum]
        simp [Function.comp, hc]
      rw [h1]
      have h2 : ∀ b ∈ Finset.range 256,
          (if c b = 0 then (0 : ℝ)
            else ((c b : ℝ) / (n : ℝ)) * Real.logb 2 ((c b : ℝ) / (n : ℝ))) =
          ((c b : ℝ) * Real.logb 2 (c b : ℝ)) / (n : ℝ) -
            ((c b : ℝ) / (n : ℝ)) * Real.logb 2 (n : ℝ) := by
        intro b _
        by_cases hcb : c b = 0
        · simp [hcb]
        · have hcb' : ((c b : ℝ)) ≠ 0 := Nat.cast_ne_zero.mpr hcb
          rw [if_neg hcb, Real.logb_div hcb' hNne]
          ring
      rw [Finset.sum_congr rfl h2, Finset.sum_sub_distrib]
      have h3 : ∑ b in Finset.range 256,
          ((c b : ℝ) / (n : ℝ)) * Real.logb 2 (n : ℝ) = Real.logb 2 (n : ℝ) := by
        rw [← Finset.sum_mul, ← Finset.sum_div]
        have h4 : ∑ b in Finset.range 256, (c b : ℝ) = (n : ℝ) := by
          exact_mod_cast congrArg (Nat.cast (R := ℝ)) hsum
        rw [h4, div_self hNne, one_mul]
      rw [h3, ← Finset.sum_div]
      ring
    -- the gate as a closed natural-number inequality
    have hG : entropyGE35 s = true ↔
        2 ^ (7 * n) * ∏ b in Finset.range 256, c b ^ (2 * c b) ≤ n ^ (2 * n) := by
      simp only [entropyGE35, ← hbs, ← hnn, if_neg hn]
      rw [listRange_map_prod (fun b => c b ^ (2 * c b)) 256]
      simp
    rw [hG, hH]
    -- positivity facts
    have hprodpos : (0 : ℝ) < ∏ b in Finset.range 256, (c b : ℝ) ^ (2 * c b) := by
      apply Finset.prod_pos
      intro b _
      by_cases hcb : c b = 0
      · simp [hcb]
      · exact pow_pos (by exact_mod_cast Nat.pos_of_ne_zero hcb) _
    have hlhspos : (0 : ℝ) <
        (2 : ℝ) ^ (7 * n) * ∏ b in Finset.range 256, (c b : ℝ) ^ (2 * c b) :=
      mul_pos (pow_pos (by norm_num) _) hprodpos
    have hrhspos : (0 : ℝ) < (n : ℝ) ^ (2 * n) := pow_pos hN _
    -- logarithm identities
    have hlog1 : Real.logb 2 ((n : ℝ) ^ (2 * n)) =
        (2 * n : ℕ) * Real.logb 2 (n : ℝ) := by
      rw [Real.logb_pow]
    have hlog2 : Real.logb 2 ((2 : ℝ) ^ (7 * n)) = (7 * n : ℕ) := by
      rw [Real.logb_pow, Real.logb_self_eq_one (by norm_num)]
      norm_num
    have hlog3 : Real.logb 2
        (∏ b in Finset.range 256, (c b : ℝ) ^ (2 * c b)) =
        ∑ b in Finset.range 256, (2 * c b : ℕ) * Real.logb 2 (c b : ℝ) := by
      rw [Real.logb_prod]
      · apply Finset.sum_congr rfl
        intro b _
        rw [Real.logb_pow]
      · intro b _
        by_cases hcb : c b = 0
        · simp [hcb]
        · exact ne_of_gt (pow_pos (by exact_mod_cast Nat.pos_of_ne_zero hcb) _)
    set L := Real.logb 2 (n : ℝ) with hL
    set S := ∑ b in Finset.range 256, (c b : ℝ) * Real.logb 2 (c b : ℝ) with hS
    have hsum2 : ∑ b in Finset.range 256,
        ((2 * c b : ℕ) : ℝ) * Real.logb 2 (c b : ℝ) = 2 * S := by
      rw [hS, Finset.mul_sum]
      apply Finset.sum_congr rfl
      intro b _
      push_cast
      ring
    have hlogeq : Real.logb 2 ((2 : ℝ) ^ (7 * n) *
        ∏ b in Finset.range 256, (c b : ℝ) ^ (2 * c b)) = (7 * n : ℕ) + 2 * S := by
      rw [Real.logb_mul (ne_of_gt (pow_pos (by norm_num) _)) (ne_of_gt hprodpos),
        hlog2, hlog3, hsum2]
    have hexp : (L - S / (n : ℝ)) * (n : ℝ) = L * n - S := by
      field_simp
    have hcast1 : ((2 ^ (7 * n) *
        ∏ b in Finset.range 256, c b ^ (2 * c b) : ℕ) : ℝ) =
        (2 : ℝ) ^ (7 * n) * ∏ b in Finset.range 256, (c b : ℝ) ^ (2 * c b) := by
      push_cast
      ring
    have hcast2 : ((n ^ (2 * n) : ℕ) : ℝ) = (n : ℝ) ^ (2 * n) := by
      push_cast
      ring
    constructor
    · intro hnat
      have hreal : (2 : ℝ) ^ (7 * n) *
          ∏ b in Finset.range 256, (c b : ℝ) ^ (2 * c b) ≤ (n : ℝ) ^ (2 * n) := by
        rw [← hcast1, ← hcast2]
        exact Nat.cast_le.mpr hnat
      have hlogle := (Real.logb_le_logb (b := 2) (by norm_num) hlhspos hrhspos).mpr hreal
      rw [hlogeq, hlog1] at hlogle
      push_cast at hlogle
      have h' : (3.5 : ℝ) * n ≤ (L - S / (n : ℝ)) * n := by
        rw [hexp]
        linarith [hlogle]
      exact (mul_le_mul_right hN).mp h'
    · intro hent
      have h' : (3.5 : ℝ) * n ≤ (L - S / (n : ℝ)) * n :=
        mul_le_mul_of_nonneg_right hent (le_of_lt hN)
      rw [hexp] at h'
      have hlogle : Real.logb 2 ((2 : ℝ) ^ (7 * n) *
          ∏ b in Finset.range 256, (c b : ℝ) ^ (2 * c b)) ≤
          Real.logb 2 ((n : ℝ) ^ (2 * n)) := by
        rw [hlogeq, hlog1]
        push_cast
        linarith [h']
      have hreal := (Real.logb_le_logb (b := 2) (by norm_num) hlhspos hrhspos).mp hlogle
      rw [← hcast1, ← hcast2] at hreal
      exact Nat.cast_le.mp hreal

/-- C8: `shannon_entropy` is a pure total function equal to the order-0
Shannon entropy in bits per byte over the string's byte-frequency
distribution, `-Σ p·log2 p` over the bytes with nonzero probability, and
the empty string scores exactly 0.  (Totality holds by construction: the
equation below is proved for every nonempty `s`, and the first conjunct
covers the empty string.) -/
theorem shannon_entropy_spec :
    shannon_entropy [] = 0 ∧
    ∀ s : List Char, s ≠ [] →
      shannon_entropy s =
        -∑ b in (Finset.range 256).filter
            (fun b => (utf8Bytes s).count b ≠ 0),
          ((utf8Bytes s).count b : ℝ) / ((utf8Bytes s).length : ℝ) *
            Real.logb 2
              (((utf8Bytes s).count b : ℝ) / ((utf8Bytes s).length : ℝ)) := by
  constructor
  · simp [shannon_entropy, utf8Bytes]
  · intro s hs
    have hn : (utf8Bytes s).length ≠ 0 := by
      match s, hs with
      | c :: s', _ =>
        simp only [utf8Bytes, List.map_cons, List.flatten_cons, List.length_append,
          List.length_eq_zero]
        intro hlen
        have h1 : (charUtf8 c).length = 0 := by omega
        rw [List.length_eq_zero] at h1
        have : charUtf8 c ≠ [] := by
          simp only [charUtf8]
          split_ifs <;> simp
        exact this h1
    simp only [shannon_entropy, if_neg hn]
    rw [foldl_entropy_sub
      (fun k => ((k : ℝ) / ((utf8Bytes s).length : ℝ)) *
        Real.logb 2 ((k : ℝ) / ((utf8Bytes s).length : ℝ)))]
    rw [List.map_map, listRange_map_sum]
    rw [Finset.sum_filter]
    rw [zero_sub, neg_inj]
    apply Finset.sum_congr rfl
    intro b _
    simp only [Function.comp]
    by_cases hcb : (utf8Bytes s).count b = 0
    · simp [hcb]
    · simp [hcb]

/-- Witness for C8 at the concrete string `"ab"`. -/
theorem shannon_entropy_spec_witness :
    ("ab".data ≠ []) ∧
    shannon_entropy "ab".data =
      -∑ b in (Finset.range 256).filter
          (fun b => (utf8Bytes "ab".data).count b ≠ 0),
        ((utf8Bytes "ab".data).count b : ℝ) / ((utf8Bytes "ab".data).length : ℝ) *
          Real.logb 2
            (((utf8Bytes "ab".data).count b : ℝ) /
              ((utf8Bytes "ab".data).length : ℝ)) :=
  ⟨by decide, shannon_entropy_spec.2 "ab".data (by decide)⟩

/-! ## Helper lemmas for the UUID version gate -/

theorem hexWord {c : Char} (h : isHexChar c = true) : isWordChar c = true := by
  simp only [isHexChar, isWordChar, isAlnumC, isLetterC, isUpperC, isLowerC,
    isDigitC, Bool.or_eq_true, Bool.and_eq_true, decide_eq_true_eq] at h ⊢
  omega

theorem hex_ne_dash {c : Char} (h : isHexChar c = true) : (c == '-') = false := by
  cases hd : (c == '-') with
  | false => rfl
  | true =>
    rw [beq_iff_eq] at hd
    subst hd
    exact absurd h (by decide)

theorem uuidAt_nil (p : Option Char) : uuidAt p [] = none := by
  unfold uuidAt
  split <;> rfl

theorem optWord_some (c : Char) : optWord (some c) = isWordChar c := rfl

theorem uuidAt_wordword (p : Option Char) (c : Char) (cs : List Char)
    (hp : optWord p = true) (hc : isWordChar c = true) :
    uuidAt p (c :: cs) = none := by
  unfold uuidAt
  rw [if_neg]
  simp [bStart, hp, optWord_some, hc]

theorem uuidAt_dashhead (p : Option Char) (cs : List Char) :
    uuidAt p ('-' :: cs) = none := by
  unfold uuidAt
  split
  · simp [hexTake, show isHexChar '-' = false from by decide]
  · rfl

theorem uuidAt_fail5 (p : Option Char) (x1 x2 x3 x4 : Char) (cs : List Char)
    (h1 : isHexChar x1 = true) (h2 : isHexChar x2 = true)
    (h3 : isHexChar x3 = true) (h4 : isHexChar x4 = true) :
    uuidAt p (x1 :: x2 :: x3 :: x4 :: '-' :: cs) = none := by
  unfold uuidAt
  split
  · simp [hexTake, h1, h2, h3, h4, show isHexChar '-' = false from by decide]
  · rfl

theorem uuidAt_fail_tail (p : Option Char) (e1 e2 e3 e4 e5 e6 e7 e8 e9 e10 e11 e12 : Char)
    (h1 : isHexChar e1 = true) (h2 : isHexChar e2 = true)
    (h3 : isHexChar e3 = true) (h4 : isHexChar e4 = true)
    (h5 : isHexChar e5 = true) (h6 : isHexChar e6 = true)
    (h7 : isHexChar e7 = true) (h8 : isHexChar e8 = true)
    (h9 : isHexChar e9 = true) :
    uuidAt p [e1, e2, e3, e4, e5, e6, e7, e8, e9, e10, e11, e12] = none := by
  unfold uuidAt
  split
  · simp [hexTake, h1, h2, h3, h4, h5, h6, h7, h8, expectC, hex_ne_dash h9]
  · rfl

theorem uuidAt_fail_version (p : Option Char)
    (x1 x2 x3 x4 x5 x6 x7 x8 y1 y2 y3 y4 v : Char) (cs : List Char)
    (hx1 : isHexChar x1 = true) (hx2 : isHexChar x2 = true)
    (hx3 : isHexChar x3 = true) (hx4 : isHexChar x4 = true)
    (hx5 : isHexChar x5 = true) (hx6 : isHexChar x6 = true)
    (hx7 : isHexChar x7 = true) (hx8 : isHexChar x8 = true)
    (hy1 : isHexChar y1 = true) (hy2 : isHexChar y2 = true)
    (hy3 : isHexChar y3 = true) (hy4 : isHexChar y4 = true)
    (hv : (v == '4') = false) :
    uuidAt p (x1 :: x2 :: x3 :: x4 :: x5 :: x6 :: x7 :: x8 :: '-' ::
      y1 :: y2 :: y3 :: y4 :: '-' :: v :: cs) = none := by
  unfold uuidAt
  split
  · simp [hexTake, hx1, hx2, hx3, hx4, hx5, hx6, hx7, hx8,
      hy1, hy2, hy3, hy4, expectC, hv]
  · rfl

theorem email_needs_at {p : Option Char} {cs : List Char} {k : Nat}
    (h : emailAt p cs = some k) : '@' ∈ cs := by
  unfold emailAt at h
  split at h
  · simp only [] at h
    split at h
    · next hcond =>
      rw [Bool.and_eq_true] at hcond
      have h2 := hcond.2
      rw [beq_iff_eq] at h2
      exact List.get?_mem h2
    · exact absurd h (by simp)
  · exact absurd h (by simp)

theorem firstM_option_some {α β : Type} {f : α → Option β} :
    ∀ {l : List α} {r : β}, l.firstM f = some r → ∃ a ∈ l, f a = some r := by
  intro l
  induction l with
  | nil => intro r h; exact absurd h (by simp [List.firstM])
  | cons a l ih =>
    intro r h
    rw [List.firstM] at h
    cases hfa : f a with
    | some b =>
      rw [hfa] at h
      simp only [Option.some_orElse] at h
      exact ⟨a, List.mem_cons_self _ _, by rw [hfa, h]⟩
    | none =>
      rw [hfa] at h
      simp only [Option.none_orElse] at h
      obtain ⟨a', ha', hfa'⟩ := ih h
      exact ⟨a', List.mem_cons_of_mem _ ha', hfa'⟩

theorem ip_needs_dot {p : Option Char} {cs : List Char} {k : Nat}
    (h : ipv4At p cs = some k) : '.' ∈ cs := by
  unfold ipv4At at h
  split at h
  · unfold ipv4Go at h
    obtain ⟨l, _, hfl⟩ := firstM_option_some h
    split at hfl
    · next hdot =>
      exact List.get?_mem hdot
    · exact absurd hfl (by simp)
  · exact absurd h (by simp)

theorem replace_with_count_nil (input : List Char)
    (mat : Option Char → List Char → Option Nat) (repl : List Char)
    (st : Bool) (c0 : Nat) (hf : findIter mat input = []) :
    replace_with_count input mat repl st c0 = (input, 0, c0) := by
  unfold replace_with_count
  rw [hf]
  show (sliceCL input 0 input.length, 0, c0) = _
  rw [sliceCL_full]

/-- C6: UUID version gate — a canonical 8-4-4-4-12 hex-hyphen UUID string
whose version nibble is 1, 3 or 5 (not 4) is never matched by the UUIDv4
matcher: `detect` reports no UUID span on it and `redact` returns a UUID
count of 0. -/
theorem uuid_version_gate (a0 a1 a2 a3 a4 a5 a6 a7 a8 a9 a10 a11 a12 a13 a14 a15 a16 a17 a18 a19 a20 a21 a22 a23 a24 a25 a26 a27 a28 a29 a30 a31 : Char)
    (d : Detections) (o : ScrubOptions)
    (hx0 : isHexChar a0 = true)
    (hx1 : isHexChar a1 = true)
    (hx2 : isHexChar a2 = true)
    (hx3 : isHexChar a3 = true)
    (hx4 : isHexChar a4 = true)
    (hx5 : isHexChar a5 = true)
    (hx6 : isHexChar a6 = true)
    (hx7 : isHexChar a7 = true)
    (hx8 : isHexChar a8 = true)
    (hx9 : isHexChar a9 = true)
    (hx10 : isHexChar a10 = true)
    (hx11 : isHexChar a11 = true)
    (hx12 : isHexChar a12 = true)
    (hx13 : isHexChar a13 = true)
    (hx14 : isHexChar a14 = true)
    (hx15 : isHexChar a15 = true)
    (hx16 : isHexChar a16 = true)
    (hx17 : isHexChar a17 = true)
    (hx18 : isHexChar a18 = true)
    (hx19 : isHexChar a19 = true)
    (hx20 : isHexChar a20 = true)
    (hx21 : isHexChar a21 = true)
    (hx22 : isHexChar a22 = true)
    (hx23 : isHexChar a23 = true)
    (hx24 : isHexChar a24 = true)
    (hx25 : isHexChar a25 = true)
    (hx26 : isHexChar a26 = true)
    (hx27 : isHexChar a27 = true)
    (hx28 : isHexChar a28 = true)
    (hx29 : isHexChar a29 = true)
    (hx30 : isHexChar a30 = true)
    (hx31 : isHexChar a31 = true)
    (hv : a12 = '1' ∨ a12 = '3' ∨ a12 = '5') :
    (detect [a0, a1, a2, a3, a4, a5, a6, a7, '-', a8, a9, a10, a11, '-', a12, a13, a14, a15, '-', a16, a17, a18, a19, '-', a20, a21, a22, a23, a24, a25, a26, a27, a28, a29, a30, a31]).uuids = [] ∧
    (redact [a0, a1, a2, a3, a4, a5, a6, a7, '-', a8, a9, a10, a11, '-', a12, a13, a14, a15, '-', a16, a17, a18, a19, '-', a20, a21, a22, a23, a24, a25, a26, a27, a28, a29, a30, a31] d o).counts.uuids = 0 := by
  have hv4 : (a12 == '4') = false := by
    rcases hv with h | h | h <;> rw [h] <;> decide
  have huuid : findIter uuidAt [a0, a1, a2, a3, a4, a5, a6, a7, '-', a8, a9, a10, a11, '-', a12, a13, a14, a15, '-', a16, a17, a18, a19, '-', a20, a21, a22, a23, a24, a25, a26, a27, a28, a29, a30, a31] = [] := by
    apply findIter_nil
    intro i
    by_cases hi : i < 36
    · interval_cases i
      · exact uuidAt_fail_version _ a0 a1 a2 a3 a4 a5 a6 a7 a8 a9 a10 a11 a12 _ hx0 hx1 hx2 hx3 hx4 hx5 hx6 hx7 hx8 hx9 hx10 hx11 hv4
      · exact uuidAt_wordword _ _ _ (hexWord hx0) (hexWord hx1)
      · exact uuidAt_wordword _ _ _ (hexWord hx1) (hexWord hx2)
      · exact uuidAt_wordword _ _ _ (hexWord hx2) (hexWord hx3)
      · exact uuidAt_wordword _ _ _ (hexWord hx3) (hexWord hx4)
      · exact uuidAt_wordword _ _ _ (hexWord hx4) (hexWord hx5)
      · exact uuidAt_wordword _ _ _ (hexWord hx5) (hexWord hx6)
      · exact uuidAt_wordword _ _ _ (hexWord hx6) (hexWord hx7)
      · exact uuidAt_dashhead _ _
      · exact uuidAt_fail5 _ a8 a9 a10 a11 _ hx8 hx9 hx10 hx11
      · exact uuidAt_wordword _ _ _ (hexWord hx8) (hexWord hx9)
      · exact uuidAt_wordword _ _ _ (hexWord hx9) (hexWord hx10)
      · exact uuidAt_wordword _ _ _ (hexWord hx10) (hexWord hx11)
      · exact uuidAt_dashhead _ _
      · exact uuidAt_fail5 _ a12 a13 a14 a15 _ hx12 hx13 hx14 hx15
      · exact uuidAt_wordword _ _ _ (hexWord hx12) (hexWord hx13)
      · exact uuidAt_wordword _ _ _ (hexWord hx13) (hexWord hx14)
      · exact uuidAt_wordword _ _ _ (hexWord hx14) (hexWord hx15)
      · exact uuidAt_dashhead _ _
      · exact uuidAt_fail5 _ a16 a17 a18 a19 _ hx16 hx17 hx18 hx19
      · exact uuidAt_wordword _ _ _ (hexWord hx16) (hexWord hx17)
      · exact uuidAt_wordword _ _ _ (hexWord hx17) (hexWord hx18)
      · exact uuidAt_wordword _ _ _ (hexWord hx18) (hexWord hx19)
      · exact uuidAt_dashhead _ _
      · exact uuidAt_fail_tail _ a20 a21 a22 a23 a24 a25 a26 a27 a28 a29 a30 a31 hx20 hx21 hx22 hx23 hx24 hx25 hx26 hx27 hx28
      · exact uuidAt_wordword _ _ _ (hexWord hx20) (hexWord hx21)
      · exact uuidAt_wordword _ _ _ (hexWord hx21) (hexWord hx22)
      · exact uuidAt_wordword _ _ _ (hexWord hx22) (hexWord hx23)
      · exact uuidAt_wordword _ _ _ (hexWord hx23) (hexWord hx24)
      · exact uuidAt_wordword _ _ _ (hexWord hx24) (hexWord hx25)
      · exact uuidAt_wordword _ _ _ (hexWord hx25) (hexWord hx26)
      · exact uuidAt_wordword _ _ _ (hexWord hx26) (hexWord hx27)
      · exact uuidAt_wordword _ _ _ (hexWord hx27) (hexWord hx28)
      · exact uuidAt_wordword _ _ _ (hexWord hx28) (hexWord hx29)
      · exact uuidAt_wordword _ _ _ (hexWord hx29) (hexWord hx30)
      · exact uuidAt_wordword _ _ _ (hexWord hx30) (hexWord hx31)
    · have hdrop : List.drop i [a0, a1, a2, a3, a4, a5, a6, a7, '-', a8, a9, a10, a11, '-', a12, a13, a14, a15, '-', a16, a17, a18, a19, '-', a20, a21, a22, a23, a24, a25, a26, a27, a28, a29, a30, a31] = ([] : List Char) := by
        apply List.drop_eq_nil_of_le
        simp only [List.length_cons, List.length_nil]
        omega
      rw [hdrop]
      exact uuidAt_nil _
  have hDchars : ∀ x ∈ [a0, a1, a2, a3, a4, a5, a6, a7, '-', a8, a9, a10, a11, '-', a12, a13, a14, a15, '-', a16, a17, a18, a19, '-', a20, a21, a22, a23, a24, a25, a26, a27, a28, a29, a30, a31], isHexChar x = true ∨ x = '-' := by
    intro x hx
    simp only [List.mem_cons, List.not_mem_nil, or_false] at hx
    rcases hx with rfl|rfl|rfl|rfl|rfl|rfl|rfl|rfl|rfl|rfl|rfl|rfl|rfl|rfl|rfl|rfl|rfl|rfl|rfl|rfl|rfl|rfl|rfl|rfl|rfl|rfl|rfl|rfl|rfl|rfl|rfl|rfl|rfl|rfl|rfl|rfl <;>
      first
        | exact Or.inr rfl
        | exact Or.inl (by assumption)
  have h_at : '@' ∉ [a0, a1, a2, a3, a4, a5, a6, a7, '-', a8, a9, a10, a11, '-', a12, a13, a14, a15, '-', a16, a17, a18, a19, '-', a20, a21, a22, a23, a24, a25, a26, a27, a28, a29, a30, a31] := by
    intro hmem
    rcases hDchars '@' hmem with h | h
    · exact absurd h (by decide)
    · exact absurd h (by decide)
  have hdot : '.' ∉ [a0, a1, a2, a3, a4, a5, a6, a7, '-', a8, a9, a10, a11, '-', a12, a13, a14, a15, '-', a16, a17, a18, a19, '-', a20, a21, a22, a23, a24, a25, a26, a27, a28, a29, a30, a31] := by
    intro hmem
    rcases hDchars '.' hmem with h | h
    · exact absurd h (by decide)
    · exact absurd h (by decide)
  have hemail : findIter emailAt [a0, a1, a2, a3, a4, a5, a6, a7, '-', a8, a9, a10, a11, '-', a12, a13, a14, a15, '-', a16, a17, a18, a19, '-', a20, a21, a22, a23, a24, a25, a26, a27, a28, a29, a30, a31] = [] := by
    apply findIter_nil
    intro i
    cases hm : emailAt (prevO none [a0, a1, a2, a3, a4, a5, a6, a7, '-', a8, a9, a10, a11, '-', a12, a13, a14, a15, '-', a16, a17, a18, a19, '-', a20, a21, a22, a23, a24, a25, a26, a27, a28, a29, a30, a31] i) (List.drop i [a0, a1, a2, a3, a4, a5, a6, a7, '-', a8, a9, a10, a11, '-', a12, a13, a14, a15, '-', a16, a17, a18, a19, '-', a20, a21, a22, a23, a24, a25, a26, a27, a28, a29, a30, a31]) with
    | none => rfl
    | some k => exact absurd (List.drop_subset i [a0, a1, a2, a3, a4, a5, a6, a7, '-', a8, a9, a10, a11, '-', a12, a13, a14, a15, '-', a16, a17, a18, a19, '-', a20, a21, a22, a23, a24, a25, a26, a27, a28, a29, a30, a31] (email_needs_at hm)) h_at
  have hip : findIter ipv4At [a0, a1, a2, a3, a4, a5, a6, a7, '-', a8, a9, a10, a11, '-', a12, a13, a14, a15, '-', a16, a17, a18, a19, '-', a20, a21, a22, a23, a24, a25, a26, a27, a28, a29, a30, a31] = [] := by
    apply findIter_nil
    intro i
    cases hm : ipv4At (prevO none [a0, a1, a2, a3, a4, a5, a6, a7, '-', a8, a9, a10, a11, '-', a12, a13, a14, a15, '-', a16, a17, a18, a19, '-', a20, a21, a22, a23, a24, a25, a26, a27, a28, a29, a30, a31] i) (List.drop i [a0, a1, a2, a3, a4, a5, a6, a7, '-', a8, a9, a10, a11, '-', a12, a13, a14, a15, '-', a16, a17, a18, a19, '-', a20, a21, a22, a23, a24, a25, a26, a27, a28, a29, a30, a31]) with
    | none => rfl
    | some k => exact absurd (List.drop_subset i [a0, a1, a2, a3, a4, a5, a6, a7, '-', a8, a9, a10, a11, '-', a12, a13, a14, a15, '-', a16, a17, a18, a19, '-', a20, a21, a22, a23, a24, a25, a26, a27, a28, a29, a30, a31] (ip_needs_dot hm)) hdot
  have hp1 := replace_with_count_nil [a0, a1, a2, a3, a4, a5, a6, a7, '-', a8, a9, a10, a11, '-', a12, a13, a14, a15, '-', a16, a17, a18, a19, '-', a20, a21, a22, a23, a24, a25, a26, a27, a28, a29, a30, a31] emailAt "<EMAIL>".data
    o.stable_placeholders 0 hemail
  have hp2 := replace_with_count_nil [a0, a1, a2, a3, a4, a5, a6, a7, '-', a8, a9, a10, a11, '-', a12, a13, a14, a15, '-', a16, a17, a18, a19, '-', a20, a21, a22, a23, a24, a25, a26, a27, a28, a29, a30, a31] ipv4At "<IP>".data
    o.stable_placeholders 0 hip
  have hp3 := replace_with_count_nil [a0, a1, a2, a3, a4, a5, a6, a7, '-', a8, a9, a10, a11, '-', a12, a13, a14, a15, '-', a16, a17, a18, a19, '-', a20, a21, a22, a23, a24, a25, a26, a27, a28, a29, a30, a31] uuidAt "<UUID>".data
    o.stable_placeholders 0 huuid
  constructor
  · simp [detect, huuid, toByteSpans]
  · simp only [redact, hp1, hp2, hp3]

/-! ## Helper lemmas for the entropy gate claims -/

theorem b64_lt128 {c : Char} (h : isB64 c = true) : c.toNat < 128 := by
  simp only [isB64, isAlnumC, isLetterC, isUpperC, isLowerC, isDigitC,
    Bool.or_eq_true, Bool.and_eq_true, decide_eq_true_eq, beq_iff_eq] at h
  rcases h with (((h | h) | h) | h) | h
  · omega
  · omega
  · omega
  · subst h; decide
  · subst h; decide

theorem charUtf8_ascii {c : Char} (h : c.toNat < 128) :
    charUtf8 c = [c.toNat] := by
  simp [charUtf8, h]

theorem utf8Bytes_ascii :
    ∀ {s : List Char}, (∀ c ∈ s, c.toNat < 128) →
      utf8Bytes s = s.map Char.toNat := by
  intro s
  induction s with
  | nil => intro _; rfl
  | cons c s ih =>
    intro h
    simp only [utf8Bytes, List.map_cons, List.flatten_cons]
    rw [charUtf8_ascii (h c (List.mem_cons_self _ _))]
    have := ih (fun x hx => h x (List.mem_cons_of_mem _ hx))
    simp only [utf8Bytes] at this
    rw [this]
    rfl

theorem utf8Len_ascii {s : List Char} (h : ∀ c ∈ s, c.toNat < 128) :
    utf8Len s = s.length := by
  unfold utf8Len
  rw [utf8Bytes_ascii h, List.length_map]

theorem runLen_all {p : Char → Bool} {s : List Char}
    (h : ∀ c ∈ s, p c = true) : runLen p s = s.length := by
  unfold runLen
  rw [List.takeWhile_eq_self_iff.mpr h]

theorem tokenAt_full (s : List Char) (hall : ∀ c ∈ s, isB64 c = true)
    (hlen : 32 ≤ s.length) (h0 : wordAt s 0 = true)
    (hlast : wordAt s (s.length - 1) = true) :
    tokenAt none s = some s.length := by
  have hb : bStart none s = true := by
    have h0' : optWord s.head? = true := by
      unfold wordAt at h0
      rw [List.get?_zero] at h0
      exact h0
    unfold bStart
    rw [h0']
    rfl
  unfold tokenAt
  rw [if_pos hb, runLen_all hall]
  cases hL : s.length with
  | zero => omega
  | succ m =>
    have hm : wordAt s m = true := by
      rw [hL] at hlast
      simpa using hlast
    have hm1 : wordAt s (m + 1) = false := by
      unfold wordAt
      rw [List.get?_eq_none.mpr (by omega)]
      rfl
    have hcond : (decide (32 ≤ m + 1) && (wordAt s m != wordAt s (m + 1))) = true := by
      have h32 : 32 ≤ m + 1 := by omega
      rw [hm, hm1]
      simp [h32]
    unfold findCut
    rw [if_pos hcond]

theorem findIter_single (mat : Option Char → List Char → Option Nat)
    (s : List Char) (hm : mat none s = some s.length) (hlen : 1 ≤ s.length) :
    findIter mat s = [(0, s.length)] := by
  unfold findIter
  match s, hm, hlen with
  | c :: cs, hm, hlen =>
    have hfuel : (c :: cs).length + 1 = (cs.length + 1) + 1 := by simp
    rw [hfuel,
      findIterF_cons_hit mat (cs.length + 1) none c cs 0 ((c :: cs).length) hm
        (by simp) (by simp)]
    have hdrop : (c :: cs).drop (c :: cs).length = [] := by
      apply List.drop_eq_nil_of_le
      exact le_refl _
    rw [hdrop, findIterF_nil_input]
    simp

theorem count_list_replicate (n : Nat) (a b : Nat) :
    (List.replicate n a).count b = if b = a then n else 0 := by
  induction n with
  | zero => simp
  | succ n ih =>
    rw [List.replicate_succ]
    by_cases hb : b = a
    · subst hb
      simp [ih]
    · simp [List.count_cons_of_ne hb, ih, hb]

theorem entropyGE35_replicate (n : Nat) (ch : Char) (h : ch.toNat < 128)
    (hn : 1 ≤ n) : entropyGE35 (List.replicate n ch) = false := by
  have hb : utf8Bytes (List.replicate n ch) = List.replicate n ch.toNat := by
    rw [utf8Bytes_ascii (fun c hc => by
      rw [List.eq_of_mem_replicate hc]; exact h)]
    rw [List.map_replicate]
  simp only [entropyGE35, hb, List.length_replicate]
  rw [if_neg (by omega)]
  have hP : ((List.range 256).map
      (fun b => ((List.replicate n ch.toNat).count b) ^
        (2 * (List.replicate n ch.toNat).count b))).prod = n ^ (2 * n) := by
    rw [listRange_map_prod]
    rw [Finset.prod_eq_single ch.toNat]
    · rw [count_list_replicate, if_pos rfl]
    · intro b _ hbne
      rw [count_list_replicate, if_neg hbne]
      rfl
    · intro habs
      exact absurd (Finset.mem_range.mpr (by omega)) habs
  rw [hP]
  rw [decide_eq_false_iff_not]
  intro habs
  have h1 : 1 ≤ n ^ (2 * n) := Nat.one_le_pow _ _ (by omega)
  have h2 : (2 : ℕ) ≤ 2 ^ (7 * n) := by
    calc (2 : ℕ) = 2 ^ 1 := by norm_num
    _ ≤ 2 ^ (7 * n) := Nat.pow_le_pow_right (by norm_num) (by omega)
  have h3 : 2 * n ^ (2 * n) ≤ 2 ^ (7 * n) * n ^ (2 * n) :=
    Nat.mul_le_mul_right _ h2
  omega

set_option maxRecDepth 100000 in
/-- C7 counterexample: the document consisting of the boundary-delimited
33-character base64url run `ej6rd0d0dzjlzur6e6ljrbs0lzssbuue-` has
byte-frequency entropy ≥ 3.5 bits/byte, yet the Token pass detects and
replaces nothing: the regex backtracks the trailing `\b` to the 32-char
prefix (entropy < 3.5), which then fails the gate.  This refutes the
claim that every 32+-character high-entropy run is detected and
replaced. -/
theorem entropy_gate_counterexample :
    (∀ c ∈ "ej6rd0d0dzjlzur6e6ljrbs0lzssbuue-".data, isB64 c = true) ∧
    32 ≤ "ej6rd0d0dzjlzur6e6ljrbs0lzssbuue-".data.length ∧
    (3.5 : ℝ) ≤ shannon_entropy "ej6rd0d0dzjlzur6e6ljrbs0lzssbuue-".data ∧
    (detect "ej6rd0d0dzjlzur6e6ljrbs0lzssbuue-".data).tokens = [] ∧
    replace_tokens "ej6rd0d0dzjlzur6e6ljrbs0lzssbuue-".data false 0 =
      ("ej6rd0d0dzjlzur6e6ljrbs0lzssbuue-".data, 0, 0) := by
  refine ⟨by decide, by decide, ?_, by decide, by decide⟩
  rw [← entropyGE35_iff]
  decide

theorem replace_tokens_nil (input : List Char) (st : Bool) (c0 : Nat)
    (hf : findIter tokenAt input = []) :
    replace_tokens input st c0 = (input, 0, c0) := by
  unfold replace_tokens
  rw [hf]
  show (sliceCL input 0 input.length, 0, c0) = _
  rw [sliceCL_full]

theorem b64_nonword_dash {c : Char} (hb : isB64 c = true)
    (hw : isWordChar c = false) : c = '-' := by
  simp only [isB64, Bool.or_eq_true, beq_iff_eq] at hb
  rcases hb with (h | h) | h
  · have hwt : isWordChar c = true := by simp [isWordChar, h]
    exact absurd (hw.symm.trans hwt) (by decide)
  · have hwt : isWordChar c = true := by rw [h]; decide
    exact absurd (hw.symm.trans hwt) (by decide)
  · exact h

theorem tokenAt_dash_run (p : Option Char) (m : Nat)
    (hp : optWord p = false) : tokenAt p (List.replicate m '-') = none := by
  unfold tokenAt
  rw [if_neg]
  unfold bStart
  rw [hp]
  cases m with
  | zero => simp [optWord]
  | succ m =>
    rw [List.replicate_succ]
    simp [optWord, isWordChar, isAlnumC, isLetterC, isUpperC, isLowerC, isDigitC]

theorem findIter_dash_run (n : Nat) :
    findIter tokenAt (List.replicate n '-') = [] := by
  apply findIter_nil
  intro i
  have hdrop : (List.replicate n '-').drop i = List.replicate (n - i) '-' :=
    List.drop_replicate ..
  rw [hdrop]
  apply tokenAt_dash_run
  unfold prevO
  split
  · rfl
  · cases hg : (List.replicate n '-').get? (i - 1) with
    | none => rfl
    | some x =>
      have hx : x = '-' := List.eq_of_mem_replicate (List.get?_mem hg)
      subst hx
      rfl

/-- C7 (amended): the entropy gate on the Token pass.
(a) A boundary-delimited run of 32+ copies of one single base64url
character is never detected or replaced as a Token (its entropy is 0);
the non-qualifying candidate passes through unchanged.
(b) A 32+-character base64url run that starts and ends with a word
character (alphanumeric or underscore) and whose byte-frequency entropy
is ≥ 3.5 bits/byte is detected, and replaced by the Token pass at
replacement time. -/
theorem entropy_gate_amended :
    (∀ (n : Nat) (ch : Char) (st : Bool) (c0 : Nat),
      32 ≤ n → isB64 ch = true →
      (detect (List.replicate n ch)).tokens = [] ∧
      replace_tokens (List.replicate n ch) st c0 =
        (List.replicate n ch, 0, c0)) ∧
    (∀ (s : List Char) (c0 : Nat),
      (∀ c ∈ s, isB64 c = true) → 32 ≤ s.length →
      wordAt s 0 = true → wordAt s (s.length - 1) = true →
      (3.5 : ℝ) ≤ shannon_entropy s →
      (detect s).tokens = [(0, s.length)] ∧
      replace_tokens s false c0 = ("<TOKEN>".data, 1, c0) ∧
      replace_tokens s true c0 =
        ('<' :: 'T' :: 'O' :: 'K' :: 'E' :: 'N' :: '_' ::
          (Nat.repr (c0 + 1)).data ++ ['>'], 1, c0 + 1)) := by
  constructor
  · intro n ch st c0 hn hb
    have hall : ∀ c ∈ List.replicate n ch, isB64 c = true := by
      intro c hc
      rw [List.eq_of_mem_replicate hc]
      exact hb
    by_cases hw : isWordChar ch = true
    · -- a word-character run: one candidate match, rejected by the gate
      have hfull : tokenAt none (List.replicate n ch) = some n := by
        have := tokenAt_full (List.replicate n ch) hall
          (by simpa using hn)
          (by
            unfold wordAt
            cases n with
            | zero => omega
            | succ m =>
              rw [List.replicate_succ]
              simpa [optWord] using hw)
          (by
            unfold wordAt
            rw [List.length_replicate]
            cases hg : (List.replicate n ch).get? (n - 1) with
            | none =>
              rw [List.get?_eq_none] at hg
              rw [List.length_replicate] at hg
              omega
            | some x =>
              have hx : x = ch := List.eq_of_mem_replicate (List.get?_mem hg)
              subst hx
              simpa [optWord] using hw)
        simpa using this
      have hfind : findIter tokenAt (List.replicate n ch) = [(0, n)] := by
        have := findIter_single tokenAt (List.replicate n ch)
          (by simpa using hfull) (by simp; omega)
        simpa using this
      have hslice : sliceCL (List.replicate n ch) 0 n = List.replicate n ch := by
        simpa using sliceCL_full (List.replicate n ch)
      have hgate : entropyGE35 (sliceCL (List.replicate n ch) 0 n) = false := by
        rw [hslice]
        exact entropyGE35_replicate n ch (b64_lt128 hb) (by omega)
      constructor
      · simp [detect, hfind, toByteSpans, hgate]
      · unfold replace_tokens
        rw [hfind,
          spliceTokens_keep (List.replicate n ch) st [(0, n)] 0 c0
            (by
              refine ⟨le_refl _, by omega, by simp, trivial⟩)
            (by
              intro m hm
              rw [List.mem_singleton] at hm
              subst hm
              exact hgate),
          sliceCL_full]
    · -- a run of hyphens: no word boundary, no candidate at all
      have hch : ch = '-' :=
        b64_nonword_dash hb (by
          cases hb' : isWordChar ch with
          | false => rfl
          | true => exact absurd hb' hw)
      subst hch
      constructor
      · simp [detect, findIter_dash_run, toByteSpans]
      · exact replace_tokens_nil _ st c0 (findIter_dash_run n)
  · intro s c0 hall hlen h0 hlast hent
    have hfull : tokenAt none s = some s.length :=
      tokenAt_full s hall hlen h0 hlast
    have hfind : findIter tokenAt s = [(0, s.length)] :=
      findIter_single tokenAt s hfull (by omega)
    have hgate : entropyGE35 (sliceCL s 0 s.length) = true := by
      rw [sliceCL_full]
      exact (entropyGE35_iff s).mpr hent
    have hascii : ∀ c ∈ s, c.toNat < 128 :=
      fun c hc => b64_lt128 (hall c hc)
    refine ⟨?_, ?_, ?_⟩
    · simp only [detect, hfind]
      simp only [List.filter_cons, hgate, List.filter_nil, if_true,
        toByteSpans, List.map_cons, List.map_nil]
      have hoff0 : byteOff s 0 = 0 := rfl
      have hoffL : byteOff s s.length = s.length := by
        unfold byteOff
        rw [List.take_length]
        exact utf8Len_ascii hascii
      rw [hoff0, hoffL]
    · unfold replace_tokens
      rw [hfind]
      simp [spliceTokens, hgate, sliceCL_refl]
    · unfold replace_tokens
      rw [hfind]
      simp [spliceTokens, hgate, sliceCL_refl]

set_option maxRecDepth 100000 in
/-- Witness for C3 at the email-shaped document
`"AbCDeF0123456789AbCDeF0123456789@x.com"` (32-character high-entropy
local part). -/
theorem category_precedence_witness :
    ((∀ c ∈ "AbCDeF0123456789AbCDeF0123456789".data, isB64 c = true) ∧
      32 ≤ "AbCDeF0123456789AbCDeF0123456789".data.length ∧
      (3.5 : ℝ) ≤ shannon_entropy "AbCDeF0123456789AbCDeF0123456789".data) ∧
    (redact ("AbCDeF0123456789AbCDeF0123456789".data ++ '@' :: "x.com".data)
        ⟨[], [], [], [], []⟩ ⟨false⟩).counts.emails = 1 ∧
    (redact ("AbCDeF0123456789AbCDeF0123456789".data ++ '@' :: "x.com".data)
        ⟨[], [], [], [], []⟩ ⟨false⟩).counts.tokens = 0 := by
  have hent : (3.5 : ℝ) ≤ shannon_entropy "AbCDeF0123456789AbCDeF0123456789".data := by
    rw [← entropyGE35_iff]
    decide
  have h := category_precedence "AbCDeF0123456789AbCDeF0123456789".data
    "x.com".data ⟨[], [], [], [], []⟩ ⟨false⟩ (by decide) (by decide) hent
    (by decide)
  exact ⟨⟨by decide, by decide, hent⟩, h.1, h.2.1⟩

set_option maxRecDepth 100000 in
/-- Witness for C6 at the version-1 UUID string
`"123e4567-e89b-12d3-a456-556642440000"`. -/
theorem uuid_version_gate_witness :
    (detect "123e4567-e89b-12d3-a456-556642440000".data).uuids = [] ∧
    (redact "123e4567-e89b-12d3-a456-556642440000".data
      ⟨[], [], [], [], []⟩ ⟨false⟩).counts.uuids = 0 := by
  have h := uuid_version_gate '1' '2' '3' 'e' '4' '5' '6' '7' 'e' '8' '9' 'b'
    '1' '2' 'd' '3' 'a' '4' '5' '6' '5' '5' '6' '6' '4' '2' '4' '4' '0' '0'
    '0' '0' ⟨[], [], [], [], []⟩ ⟨false⟩
    (by decide) (by decide) (by decide) (by decide) (by decide) (by decide)
    (by decide) (by decide) (by decide) (by decide) (by decide) (by decide)
    (by decide) (by decide) (by decide) (by decide) (by decide) (by decide)
    (by decide) (by decide) (by decide) (by decide) (by decide) (by decide)
    (by decide) (by decide) (by decide) (by decide) (by decide) (by decide)
    (by decide) (by decide) (Or.inl rfl)
  exact h

set_option maxRecDepth 100000 in
/-- Witness for the amended C7 at the repeated run `replicate 32 'a'` and
the high-entropy run `"AbCDeF0123456789AbCDeF0123456789"`. -/
theorem entropy_gate_amended_witness :
    ((detect (List.replicate 32 'a')).tokens = [] ∧
      replace_tokens (List.replicate 32 'a') false 0 =
        (List.replicate 32 'a', 0, 0)) ∧
    ((detect "AbCDeF0123456789AbCDeF0123456789".data).tokens = [(0, 32)] ∧
      replace_tokens "AbCDeF0123456789AbCDeF0123456789".data false 0 =
        ("<TOKEN>".data, 1, 0) ∧
      replace_tokens "AbCDeF0123456789AbCDeF0123456789".data true 0 =
        ("<TOKEN_1>".data, 1, 1)) := by
  constructor
  · exact entropy_gate_amended.1 32 'a' false 0 (by decide) (by decide)
  · have h := entropy_gate_amended.2 "AbCDeF0123456789AbCDeF0123456789".data 0
      (by decide) (by decide) (by decide) (by decide)
      (by rw [← entropyGE35_iff]; decide)
    exact h

/-! ## Byte-offset safety of detection spans -/

theorem spansOK_mem {lo hi : Nat} :
    ∀ {ms : List (Nat × Nat)}, SpansOK lo hi ms →
      ∀ m ∈ ms, lo ≤ m.1 ∧ m.1 < m.2 ∧ m.2 ≤ hi := by
  intro ms
  induction ms with
  | nil => intro _ m hm; exact absurd hm (List.not_mem_nil m)
  | cons x ms ih =>
    intro hok m hm
    obtain ⟨s, e⟩ := x
    obtain ⟨h1, h2, h3, h4⟩ := hok
    rcases List.mem_cons.mp hm with rfl | hm'
    · exact ⟨h1, h2, h3⟩
    · have := ih (spansOK_mono (le_of_lt (lt_of_le_of_lt h1 h2)) h4) m hm'
      omega

theorem take_sum_mono (l : List ℕ) :
    ∀ a b, a ≤ b → (l.take a).sum ≤ (l.take b).sum := by
  induction l with
  | nil => intro a b _; simp
  | cons x l ih =>
    intro a b hab
    cases a with
    | zero => simp
    | succ a =>
      cases b with
      | zero => omega
      | succ b =>
        simp only [List.take_succ_cons, List.sum_cons]
        exact Nat.add_le_add_left (ih a b (by omega)) x

theorem utf8Len_eq_sum (s : List Char) :
    utf8Len s = (s.map (fun c => (charUtf8 c).length)).sum := by
  unfold utf8Len utf8Bytes
  induction s with
  | nil => rfl
  | cons c s ih =>
    simp only [List.map_cons, List.flatten_cons, List.length_append,
      List.sum_cons]
    omega

theorem byteOff_mono (s : List Char) {a b : Nat} (hab : a ≤ b) :
    byteOff s a ≤ byteOff s b := by
  unfold byteOff
  rw [utf8Len_eq_sum, utf8Len_eq_sum, List.map_take, List.map_take]
  exact take_sum_mono (s.map (fun c => (charUtf8 c).length)) a b hab

theorem byteOff_le (s : List Char) {b : Nat} (hb : b ≤ s.length) :
    byteOff s b ≤ utf8Len s := by
  have h := byteOff_mono s hb
  unfold byteOff at h
  rw [List.take_length] at h
  exact h

/-- C9: boundary safety — `detect` is total over every input (the
statement quantifies over all strings, including empty and non-ASCII),
and every span it reports is well-formed: the start is at most the end,
the end is within the UTF-8 byte length of the input, and both offsets
fall on character-encoding boundaries (each equals the byte length of
some character-prefix of the input), so the slicing done with these
offsets can never cut through a multi-byte character. -/
theorem span_boundary_safety (s : List Char) :
    ∀ sp ∈ (detect s).emails ++ (detect s).ips ++ (detect s).uuids ++
        (detect s).jwts ++ (detect s).tokens,
      sp.1 ≤ sp.2 ∧ sp.2 ≤ utf8Len s ∧
      (∃ k, k ≤ s.length ∧ sp.1 = byteOff s k) ∧
      (∃ k, k ≤ s.length ∧ sp.2 = byteOff s k) := by
  have key : ∀ (ms : List (Nat × Nat)), SpansOK 0 s.length ms →
      ∀ sp ∈ toByteSpans s ms,
        sp.1 ≤ sp.2 ∧ sp.2 ≤ utf8Len s ∧
        (∃ k, k ≤ s.length ∧ sp.1 = byteOff s k) ∧
        (∃ k, k ≤ s.length ∧ sp.2 = byteOff s k) := by
    intro ms hok sp hsp
    unfold toByteSpans at hsp
    rw [List.mem_map] at hsp
    obtain ⟨m, hm, rfl⟩ := hsp
    obtain ⟨h1, h2, h3⟩ := spansOK_mem hok m hm
    refine ⟨byteOff_mono s (by omega), byteOff_le s h3,
      ⟨m.1, by omega, rfl⟩, ⟨m.2, h3, rfl⟩⟩
  intro sp hsp
  simp only [List.mem_append] at hsp
  rcases hsp with ((((h | h) | h) | h) | h)
  · exact key _ (findIter_spansOK emailAt s) sp h
  · exact key _ (findIter_spansOK ipv4At s) sp h
  · exact key _ (findIter_spansOK uuidAt s) sp h
  · exact key _ (findIter_spansOK jwtAt s) sp h
  · -- token spans: membership in the filtered candidate list
    unfold detect toByteSpans at h
    rw [List.mem_map] at h
    obtain ⟨m, hm, rfl⟩ := h
    have hm' : m ∈ findIter tokenAt s := List.mem_of_mem_filter hm
    obtain ⟨h1, h2, h3⟩ := spansOK_mem (findIter_spansOK tokenAt s) m hm'
    refine ⟨byteOff_mono s (by omega), byteOff_le s h3,
      ⟨m.1, by omega, rfl⟩, ⟨m.2, h3, rfl⟩⟩

/-- Witness for C9 at the concrete document `"a@b.cc"` and its email
span. -/
theorem span_boundary_safety_witness :
    ((0, 6) ∈ (detect "a@b.cc".data).emails ++ (detect "a@b.cc".data).ips ++
      (detect "a@b.cc".data).uuids ++ (detect "a@b.cc".data).jwts ++
      (detect "a@b.cc".data).tokens) ∧
    ((0, 6).1 ≤ (0, 6).2 ∧ (0, 6).2 ≤ utf8Len "a@b.cc".data ∧
      (∃ k, k ≤ "a@b.cc".data.length ∧ (0, 6).1 = byteOff "a@b.cc".data k) ∧
      (∃ k, k ≤ "a@b.cc".data.length ∧ (0, 6).2 = byteOff "a@b.cc".data k)) :=
  ⟨by decide, span_boundary_safety "a@b.cc".data (0, 6) (by decide)⟩


/-! ## Run and index helper lemmas -/

theorem head?_append_ne {α : Type} (W rest : List α) (h : W ≠ []) :
    (W ++ rest).head? = W.head? := by
  cases W with
  | nil => exact absurd rfl h
  | cons c cs => rfl

theorem get?_len_append {α : Type} (W : List α) (c : α) (r : List α) :
    (W ++ c :: r).get? W.length = some c := by
  rw [List.get?_append_right (Nat.le_refl _), Nat.sub_self]
  rfl

theorem runLen_ge_of (p : Char → Bool) (W rest : List Char)
    (hW : AllClass p W) : W.length ≤ runLen p (W ++ rest) := by
  induction W with
  | nil => simp
  | cons c cs ih =>
    have hc : p c = true := hW c (by simp)
    have ihh := ih (fun x hx => hW x (by simp [hx]))
    simp only [List.cons_append, runLen, List.takeWhile_cons, hc, if_true,
      List.length_cons]
    simpa [runLen, Nat.succ_le_succ_iff] using ihh

theorem runLen_le_length (p : Char → Bool) (cs : List Char) :
    runLen p cs ≤ cs.length := by
  induction cs with
  | nil => simp [runLen]
  | cons a as ih =>
    by_cases ha : p a = true
    · simp only [runLen, List.takeWhile_cons, ha, if_true, List.length_cons]
      exact Nat.succ_le_succ (by simpa [runLen] using ih)
    · rw [Bool.not_eq_true] at ha
      simp [runLen, List.takeWhile_cons, ha]

theorem runLen_take_all (p : Char → Bool) (cs : List Char) :
    AllClass p (cs.take (runLen p cs)) := by
  induction cs with
  | nil => intro c hc; simp at hc
  | cons c cs ih =>
    intro x hx
    by_cases hc : p c = true
    · simp only [runLen, List.takeWhile_cons, hc, if_true, List.length_cons,
        List.take_succ_cons] at hx
      rcases List.mem_cons.mp hx with h | h
      · exact h ▸ hc
      · exact ih x (by simpa [runLen] using h)
    · simp only [runLen, List.takeWhile_cons, Bool.not_eq_true] at hc
      simp [runLen, List.takeWhile_cons, hc] at hx

theorem get?_runLen_stop (p : Char → Bool) (cs : List Char) (c : Char)
    (h : cs.get? (runLen p cs) = some c) : p c = false := by
  induction cs with
  | nil => simp at h
  | cons a as ih =>
    by_cases ha : p a = true
    · simp only [runLen, List.takeWhile_cons, ha, if_true, List.length_cons] at h
      exact ih (by simpa [runLen] using h)
    · rw [Bool.not_eq_true] at ha
      simp only [runLen, List.takeWhile_cons, ha] at h
      simp only [Bool.false_eq_true, if_false, List.length_nil, List.get?] at h
      cases h; exact ha

theorem word_b64 {c : Char} (h : isWordChar c = true) : isB64 c = true := by
  simp only [isWordChar, Bool.or_eq_true] at h
  rcases h with h | h <;> simp [isB64, h]

theorem nonb64_nonword {c : Char} (h : isB64 c = false) :
    isWordChar c = false := by
  by_contra hw
  rw [Bool.not_eq_false] at hw
  rw [word_b64 hw] at h
  exact Bool.true_eq_false.mp h

/-! ## Email matcher: soundness and completeness for `EmailWindow` -/

theorem take_le_runLen_all (p : Char → Bool) (cs : List Char) (j : Nat)
    (hj : j ≤ runLen p cs) : AllClass p (cs.take j) := by
  intro c hc
  have h1 : cs.take j = (cs.take (runLen p cs)).take j := by
    rw [List.take_take, Nat.min_eq_left hj]
  rw [h1] at hc
  exact runLen_take_all p cs c (List.take_subset _ _ hc)

theorem head?_take_pos {α : Type} (cs : List α) (n : Nat) (h : 1 ≤ n) :
    (cs.take n).head? = cs.head? := by
  cases cs with
  | nil => simp
  | cons c cc =>
    cases n with
    | zero => omega
    | succ m => simp

theorem get?_append_lt {α : Type} (W r : List α) (i : Nat) (h : i < W.length) :
    (W ++ r).get? i = W.get? i :=
  List.get?_append h

theorem get?_len_append2 {α : Type} (W r : List α) :
    (W ++ r).get? W.length = r.head? := by
  cases r with
  | nil => simp
  | cons c cc => exact get?_len_append W c cc

theorem head?_drop_get? {α : Type} (cs : List α) (n : Nat) :
    (cs.drop n).head? = cs.get? n := by
  induction cs generalizing n with
  | nil => simp
  | cons c cc ih =>
    cases n with
    | zero => rfl
    | succ m => exact ih m

theorem get?_take_lt {α : Type} (cs : List α) (n i : Nat) (h : i < n) :
    (cs.take n).get? i = cs.get? i := by
  induction cs generalizing n i with
  | nil => simp
  | cons c cc ih =>
    cases n with
    | zero => omega
    | succ m =>
      cases i with
      | zero => rfl
      | succ j => simpa using ih m j (by omega)

theorem getLast?_take_get? {α : Type} (cs : List α) (n : Nat)
    (h1 : 1 ≤ n) (h2 : n ≤ cs.length) :
    (cs.take n).getLast? = cs.get? (n - 1) := by
  rw [List.getLast?_eq_getElem?, ← List.get?_eq_getElem?]
  rw [List.length_take, Nat.min_eq_left h2]
  exact get?_take_lt cs n (n - 1) (by omega)

theorem wordAt_runLen_b64 (rest : List Char) :
    wordAt rest (runLen isB64 rest) = false := by
  cases hg : rest.get? (runLen isB64 rest) with
  | none =>
    show optWord (rest.get? (runLen isB64 rest)) = false
    rw [hg]
    rfl
  | some c =>
    have hs := get?_runLen_stop isB64 rest c hg
    show optWord (rest.get? (runLen isB64 rest)) = false
    rw [hg]
    exact nonb64_nonword hs

/-! ## `findCut` lemmas -/

theorem findCut_none_of_minl (rest : List Char) (minl K : Nat) (h : K < minl) :
    findCut rest minl K = none := by
  induction K with
  | zero => rfl
  | succ k ih =>
    simp only [findCut]
    have : ¬ (minl ≤ k + 1) := by omega
    simp only [decide_eq_false this, Bool.false_and, Bool.false_eq_true,
      if_false]
    exact ih (by omega)

theorem findCut_sound (rest : List Char) (minl K k : Nat)
    (h : findCut rest minl K = some k) :
    minl ≤ k ∧ k ≤ K ∧ 1 ≤ k ∧ wordAt rest (k - 1) ≠ wordAt rest k := by
  induction K with
  | zero => simp [findCut] at h
  | succ j ih =>
    simp only [findCut] at h
    by_cases hc : (decide (minl ≤ j + 1) && (wordAt rest j != wordAt rest (j + 1))) = true
    · rw [if_pos hc] at h
      rw [Bool.and_eq_true, decide_eq_true_eq, bne_iff_ne] at hc
      cases h
      exact ⟨hc.1, Nat.le_refl _, by omega, by simpa using hc.2⟩
    · rw [if_neg hc] at h
      obtain ⟨a, b, c, d⟩ := ih h
      exact ⟨a, Nat.le_succ_of_le b, c, d⟩

theorem findCut_endword (rest : List Char) (minl K k : Nat)
    (hKw : wordAt rest K = false)
    (h : findCut rest minl K = some k) :
    wordAt rest (k - 1) = true ∧ wordAt rest k = false := by
  induction K with
  | zero => simp [findCut] at h
  | succ j ih =>
    simp only [findCut] at h
    by_cases hc : (decide (minl ≤ j + 1) && (wordAt rest j != wordAt rest (j + 1))) = true
    · rw [if_pos hc] at h
      rw [Bool.and_eq_true, bne_iff_ne] at hc
      cases h
      have : wordAt rest j = true := by
        rcases Bool.eq_false_or_eq_true (wordAt rest j) with ht | hf
        · exact ht
        · exfalso; exact hc.2 (by rw [hf, hKw])
      exact ⟨by simpa using this, hKw⟩
    · rw [if_neg hc] at h
      by_cases hm : minl ≤ j + 1
      · have hflip : wordAt rest j = wordAt rest (j + 1) := by
          by_contra hne
          exact hc (by rw [Bool.and_eq_true, bne_iff_ne]
                       exact ⟨decide_eq_true hm, hne⟩)
        exact ih (by rw [hflip]; exact hKw) h
      · rw [findCut_none_of_minl rest minl j (by omega)] at h
        cases h

theorem findCut_complete (rest : List Char) (minl K k0 : Nat)
    (hmin : minl ≤ k0) (hK : k0 ≤ K) (h1 : 1 ≤ k0)
    (hflip : wordAt rest (k0 - 1) ≠ wordAt rest k0) :
    ∃ k, findCut rest minl K = some k := by
  induction K with
  | zero => omega
  | succ j ih =>
    simp only [findCut]
    by_cases hc : (decide (minl ≤ j + 1) && (wordAt rest j != wordAt rest (j + 1))) = true
    · rw [if_pos hc]; exact ⟨_, rfl⟩
    · rw [if_neg hc]
      rcases Nat.lt_or_ge k0 (j + 1) with hlt | hge
      · exact ih (by omega)
      · exfalso
        have hk0 : k0 = j + 1 := by omega
        apply hc
        rw [Bool.and_eq_true, bne_iff_ne]
        refine ⟨decide_eq_true (by omega), ?_⟩
        have e2 : j + 1 = k0 := by omega
        have e1 : j = k0 - 1 := by omega
        rw [e2, e1]
        exact hflip

/-! ## Token matcher: soundness and completeness -/

theorem tokenAt_sound {prev : Option Char} {cs : List Char} {n : Nat}
    (h : tokenAt prev cs = some n) :
    ∃ W rest, cs = W ++ rest ∧ W.length = n ∧
      TokWindow (optWord prev) W (optWord rest.head?) ∧
      optWord rest.head? = false := by
  simp only [tokenAt] at h
  by_cases hb : bStart prev cs = true
  · rw [if_pos hb] at h
    obtain ⟨h32, hle, h1, _⟩ := findCut_sound cs 32 _ n h
    obtain ⟨hw1, hw2⟩ := findCut_endword cs 32 _ n (wordAt_runLen_b64 cs) h
    have hnlen : n ≤ cs.length := le_trans hle (runLen_le_length _ _)
    have hlenW : (cs.take n).length = n := by
      rw [List.length_take, Nat.min_eq_left hnlen]
    have hrestw : optWord (cs.drop n).head? = false := by
      rw [head?_drop_get?]
      exact hw2
    refine ⟨cs.take n, cs.drop n, (List.take_append_drop n cs).symm, hlenW,
      ?_, hrestw⟩
    refine ⟨by rw [hlenW]; exact h32, take_le_runLen_all isB64 cs n hle, ?_, ?_⟩
    · rw [head?_take_pos cs n (by omega)]
      rw [bStart] at hb
      exact bne_iff_ne.mp hb
    · cases hgl : cs.get? (n - 1) with
      | none =>
        exfalso
        have hz : optWord (cs.get? (n - 1)) = true := hw1
        rw [hgl] at hz
        cases hz
      | some cl =>
        refine ⟨cl, ?_, ?_⟩
        · rw [getLast?_take_get? cs n (by omega) hnlen, hgl]
        · have hz : optWord (cs.get? (n - 1)) = true := hw1
          rw [hgl] at hz
          rw [hrestw]
          rw [show optWord (some cl) = isWordChar cl from rfl] at hz
          rw [hz]
          simp
  · rw [if_neg hb] at h; cases h

theorem tokenAt_complete {prev : Option Char} {W rest : List Char}
    (hW : TokWindow (optWord prev) W (optWord rest.head?)) :
    ∃ k, tokenAt prev (W ++ rest) = some k := by
  obtain ⟨h32, hall, hflip, cl, hlast, hclflip⟩ := hW
  have hWne : W ≠ [] := by
    intro hnil
    rw [hnil] at h32
    simp at h32
  have hbs : bStart prev (W ++ rest) = true := by
    rw [bStart, head?_append_ne W rest hWne, bne_iff_ne]
    exact hflip
  have hrun : W.length ≤ runLen isB64 (W ++ rest) := runLen_ge_of isB64 W rest hall
  have hgl : W.get? (W.length - 1) = some cl := by
    rw [List.get?_eq_getElem?, ← List.getLast?_eq_getElem?]
    exact hlast
  have hfl : wordAt (W ++ rest) (W.length - 1) ≠ wordAt (W ++ rest) W.length := by
    have e1 : wordAt (W ++ rest) (W.length - 1) = isWordChar cl := by
      show optWord ((W ++ rest).get? (W.length - 1)) = isWordChar cl
      rw [get?_append_lt W rest _ (by omega), hgl]
      rfl
    have e2 : wordAt (W ++ rest) W.length = optWord rest.head? := by
      show optWord ((W ++ rest).get? W.length) = optWord rest.head?
      rw [get?_len_append2]
    rw [e1, e2]
    exact hclflip
  obtain ⟨k, hk⟩ := findCut_complete (W ++ rest) 32 (runLen isB64 (W ++ rest))
    W.length h32 hrun (by omega) hfl
  refine ⟨k, ?_⟩
  simp only [tokenAt]
  rw [if_pos hbs]
  exact hk

/-! ## JWT matcher: soundness and completeness -/

theorem sliceCL_drop_suffix (X : List Char) (a b j : Nat) (_h : a + j ≤ b) :
    (sliceCL X a b).drop j = sliceCL X (a + j) b := by
  simp only [sliceCL, List.drop_drop]

theorem sliceCL_take_prefix (X : List Char) (a b j : Nat) (h : a + j ≤ b) :
    (sliceCL X a b).take j = sliceCL X a (a + j) := by
  simp only [sliceCL]
  rw [List.take_drop]
  rw [List.take_take, Nat.min_eq_left (by omega : a + j ≤ b)]

theorem drop_eq_slice_append (X : List Char) (a b : Nat)
    (hab : a ≤ b) (hb : b ≤ X.length) :
    X.drop a = sliceCL X a b ++ X.drop b := by
  simp only [sliceCL]
  rw [← List.drop_append_of_le_length (by simp [List.length_take]; omega)]
  rw [List.take_append_drop]

theorem sliceCL_length (X : List Char) (a b : Nat) (hb : b ≤ X.length) :
    (sliceCL X a b).length = b - a := by
  simp only [sliceCL, List.length_drop, List.length_take]
  omega

theorem sliceCL_get? (X : List Char) (a b j : Nat) (h : a + j < b) :
    (sliceCL X a b).get? j = X.get? (a + j) := by
  simp only [sliceCL]
  rw [List.get?_drop]
  rw [get?_take_lt _ _ _ (by omega), Nat.add_comm a j]

theorem split_le_left {α : Type} (L1 L2 B1 B2 : List α)
    (h : L1 ++ L2 = B1 ++ B2) (hl : B1.length ≤ L1.length) :
    ∃ M, L1 = B1 ++ M ∧ B2 = M ++ L2 := by
  refine ⟨L1.drop B1.length, ?_, ?_⟩
  · have ht : (B1 ++ B2).take B1.length = B1 := by
      rw [List.take_left]
    have ht2 : (L1 ++ L2).take B1.length = L1.take B1.length := by
      rw [List.take_append_of_le_length hl]
    conv_lhs => rw [← List.take_append_drop B1.length L1]
    rw [← ht2, h, ht]
  · have hd : (B1 ++ B2).drop B1.length = B2 := by rw [List.drop_left]
    have hd2 : (L1 ++ L2).drop B1.length = L1.drop B1.length ++ L2 := by
      rw [List.drop_append_of_le_length hl]
    rw [← hd, ← h, hd2]

theorem split_ge_left {α : Type} (L1 L2 B1 B2 : List α)
    (h : L1 ++ L2 = B1 ++ B2) (hl : L1.length ≤ B1.length) :
    ∃ M, B1 = L1 ++ M ∧ L2 = M ++ B2 := by
  obtain ⟨M, h1, h2⟩ := split_le_left B1 B2 L1 L2 h.symm hl
  exact ⟨M, h1, h2⟩

theorem pwExt_append (p : Bool) (A B : List Char) :
    pwExt p (A ++ B) = pwExt (pwExt p A) B := by
  cases hB : B.getLast? with
  | none =>
    have hBnil : B = [] := List.getLast?_eq_none_iff.mp hB
    subst hBnil
    simp [pwExt]
  | some c =>
    have h1 : (A ++ B).getLast? = some c := by
      rw [List.getLast?_append_of_ne_nil]
      · exact hB
      · intro hnil; rw [hnil] at hB; cases hB
    simp [pwExt, h1, hB]

theorem prefix_stops_at_barrier {W S R rest : List Char} {c : Char}
    (h : W ++ rest = S ++ c :: R) (p : Char → Bool)
    (hW : AllClass p W) (hc : p c = false) : W.length ≤ S.length := by
  by_contra hlt
  push_neg at hlt
  have h1 : (W ++ rest).get? S.length = W.get? S.length :=
    get?_append_lt W rest S.length hlt
  have h2 : (S ++ c :: R).get? S.length = some c := get?_len_append S c R
  rw [h, h2] at h1
  have hcW : c ∈ W := List.get?_mem h1.symm
  rw [hW c hcW] at hc
  cases hc

/-! ## Character-class facts for the window kits -/

theorem tokWindow_class {pw : Bool} {W : List Char} {nw : Bool}
    (h : TokWindow pw W nw) : AllClass isB64 W := h.2.1

/-! ## Window edge facts -/

theorem getLast?_glue_cons {α : Type} {a : α} {X : List α} {c : α}
    (h : X.getLast? = some c) : (a :: X).getLast? = some c := by
  have hx : a :: X = [a] ++ X := rfl
  rw [hx, List.getLast?_append, h]
  rfl

theorem getLast?_glue_append {α : Type} (A : List α) {B : List α} {c : α}
    (h : B.getLast? = some c) : (A ++ B).getLast? = some c := by
  rw [List.getLast?_append, h]
  rfl

theorem tokWindow_ne_nil {pw : Bool} {W : List Char} {nw : Bool}
    (h : TokWindow pw W nw) : W ≠ [] := by
  obtain ⟨h32, _⟩ := h
  intro hnil
  rw [hnil] at h32
  simp at h32

theorem tokWindow_flip {pw : Bool} {W : List Char} {nw : Bool}
    (h : TokWindow pw W nw) : pw ≠ optWord W.head? := by
  exact h.2.2.1

theorem tokWindow_lastw {pw : Bool} {W : List Char}
    (h : TokWindow pw W false) :
    ∃ cl, W.getLast? = some cl ∧ isWordChar cl = true := by
  obtain ⟨_, _, _, cl, hgl, hw⟩ := h
  refine ⟨cl, hgl, ?_⟩
  rcases Bool.eq_false_or_eq_true (isWordChar cl) with hf | ht
  · exact hf
  · exact absurd ht hw

/-! ## Nil failure and match-length bounds -/

theorem tokenAt_nil2 (p : Option Char) : tokenAt p [] = none := by
  simp only [tokenAt, runLen, List.takeWhile_nil, List.length_nil, findCut]
  split <;> rfl

theorem head?_eq_get?0 {α : Type} (l : List α) : l.head? = l.get? 0 := by
  cases l <;> rfl

theorem sliceCL_head? (X : List Char) (a b : Nat) (hab : a < b)
    (hb : b ≤ X.length) : (sliceCL X a b).head? = X.get? a := by
  rw [head?_eq_get?0, sliceCL_get? X a b 0 (by omega)]
  rfl

theorem get?_isSome_of_lt {α : Type} (l : List α) (i : Nat) (h : i < l.length) :
    ∃ c, l.get? i = some c := by
  cases hg : l.get? i with
  | none =>
    rw [List.get?_eq_none] at hg
    omega
  | some c => exact ⟨c, rfl⟩

theorem pwExt_take_slice (X : List Char) (last s j : Nat)
    (hj : last + j ≤ s) (hs : s ≤ X.length)
    (hcase : 1 ≤ j ∨ last = 0) :
    pwExt false ((sliceCL X last s).take j) =
      optWord (prevO none X (last + j)) := by
  by_cases hj0 : j = 0
  · subst hj0
    have hl0 : last = 0 := by omega
    subst hl0
    simp [pwExt, prevO, optWord]
  · have hj1 : 1 ≤ j := by omega
    have hlen : (sliceCL X last s).length = s - last :=
      sliceCL_length X last s hs
    have hjle : j ≤ (sliceCL X last s).length := by omega
    obtain ⟨c, hc⟩ := get?_isSome_of_lt X (last + j - 1) (by omega)
    have hgl : ((sliceCL X last s).take j).getLast? = some c := by
      rw [getLast?_take_get? _ _ hj1 hjle,
        sliceCL_get? X last s (j - 1) (by omega)]
      rw [show last + (j - 1) = last + j - 1 from by omega]
      exact hc
    simp only [pwExt, hgl]
    simp only [prevO, if_neg (by omega : ¬ last + j = 0)]
    rw [show last + j - 1 = last + j - 1 from rfl, hc]
    rfl

/-- Core transfer theorem: if the matcher of a category (described by its
window predicate and kit of facts) fails at every position of the input
`X` that the processed spans do not cover, then it fails at every
position of the spliced output, for any split of that output. -/
theorem outSplice_noK
    (mat : Option Char → List Char → Option Nat)
    (Window : Bool → List Char → Bool → Prop)
    (classK needK : Char → Bool)
    (sound : ∀ {prev : Option Char} {cs : List Char} {n : Nat},
      mat prev cs = some n →
      ∃ W rest, cs = W ++ rest ∧ W.length = n ∧
        Window (optWord prev) W (optWord rest.head?))
    (complete : ∀ {prev : Option Char} {W rest : List Char},
      Window (optWord prev) W (optWord rest.head?) →
      ∃ k, mat prev (W ++ rest) = some k)
    (kclass : ∀ {pw W nw}, Window pw W nw → AllClass classK W)
    (kneed : ∀ {pw W nw}, Window pw W nw →
      (∃ c ∈ W, needK c = true) ∨ 32 ≤ W.length)
    (kflip : ∀ {pw W nw}, Window pw W nw → W ≠ [] ∧ pw ≠ optWord W.head?)
    (klastw : ∀ {pw W}, Window pw W false →
      ∃ cl, W.getLast? = some cl ∧ isWordChar cl = true)
    (hltc : classK '<' = false) (hgtc : classK '>' = false)
    (X repl : List Char) (stable : Bool) :
    ∀ (ms : List (Nat × Nat)) (last c0 : Nat),
      last ≤ X.length →
      SpansOK last X.length ms →
      MatchEdges X ms →
      (∀ i, last ≤ i → ¬ Covers ms i →
        mat (prevO none X i) (X.drop i) = none) →
      (last = 0 ∨ wordAt X last = false) →
      (∀ k, c0 < k → k ≤ c0 + ms.length →
        ∃ inner, phText repl stable k = '<' :: (inner ++ ['>']) ∧
          (∀ c ∈ inner, needK c = false) ∧ inner.length < 32) →
      ∀ (B1 B2 : List Char),
        outSplice X repl stable ms last c0 = B1 ++ B2 →
      ∀ q : Option Char, optWord q = pwExt false B1 →
      mat q B2 = none := by
  intro ms
  induction ms with
  | nil =>
    intro last c0 hlast _ _ HX HB _ B1 B2 hsplit q hq
    have hsl : sliceCL X last X.length = X.drop last := by
      simp [sliceCL, List.take_length]
    rw [outSplice, hsl] at hsplit
    cases hm : mat q B2 with
    | none => rfl
    | some n =>
      exfalso
      obtain ⟨W, rest, hWr, hWlen, hwin⟩ := sound hm
      have hWne : W ≠ [] := (kflip hwin).1
      have hB2 : B2 = X.drop (last + B1.length) := by
        have h1 : (B1 ++ B2).drop B1.length = B2 := List.drop_left _ _
        rw [← hsplit, List.drop_drop] at h1
        exact h1.symm
      have hjle : last + B1.length ≤ X.length := by
        have := congrArg List.length hsplit
        simp only [List.length_drop, List.length_append] at this
        omega
      by_cases hk0 : B1.length = 0 ∧ 1 ≤ last
      · -- split at the head of a segment that follows a match
        have hBf : wordAt X last = false := by
          rcases HB with h | h
          · omega
          · exact h
        have hq0 : optWord q = false := by
          rw [hq, List.length_eq_zero.mp hk0.1]
          rfl
        have hhd : W.head? = X.get? last := by
          rw [← head?_append_ne W rest hWne, ← hWr, hB2, hk0.1,
            head?_drop_get?]
          congr 1
        have := (kflip hwin).2
        rw [hq0, hhd] at this
        exact this hBf.symm
      · have hcase : 1 ≤ B1.length ∨ last = 0 := by omega
        have hB1t : B1 = (sliceCL X last X.length).take B1.length := by
          rw [hsl]
          have h2 : (B1 ++ B2).take B1.length = B1 := List.take_left _ _
          rw [← hsplit] at h2
          exact h2.symm
        have hpw : optWord q = optWord (prevO none X (last + B1.length)) := by
          rw [hq]
          conv_lhs => rw [hB1t]
          exact pwExt_take_slice X last X.length B1.length hjle
            (Nat.le_refl _) hcase
        have hwinX : Window (optWord (prevO none X (last + B1.length))) W
            (optWord rest.head?) := by
          rw [← hpw]
          exact hwin
        obtain ⟨k, hk⟩ := complete hwinX
        have hfail := HX (last + B1.length) (by omega)
          (by intro ⟨m, hmem, _, _⟩; simp at hmem)
        rw [hB2] at hWr
        rw [← hWr] at hk
        rw [hfail] at hk
        cases hk
  | cons m ms' ih =>
    obtain ⟨s, e⟩ := m
    intro last c0 hlast hSP HME HX HB HPH B1 B2 hsplit q hq
    obtain ⟨h1, h2, h3, h4⟩ := hSP
    obtain ⟨hma, hmb, hmc, hmrest⟩ := HME
    obtain ⟨inner, hph, hneedI, hlenI⟩ := HPH (c0 + 1) (by omega)
      (by simp only [List.length_cons]; omega)
    have hsX : s ≤ X.length := by omega
    rw [outSplice] at hsplit
    set slice := sliceCL X last s with hslice
    set PH := phText repl stable (c0 + 1) with hPH
    set OUTrest := outSplice X repl stable ms' e (c0 + 1) with hOUT
    have hslen : slice.length = s - last := sliceCL_length X last s hsX
    have hPHlen : PH.length = inner.length + 2 := by
      rw [hph]
      simp
    by_cases hA : B1.length < slice.length
    · -- split inside the leading slice
      rw [List.append_assoc] at hsplit
      obtain ⟨M1, hsl, hB2⟩ :=
        split_le_left slice (PH ++ OUTrest) B1 B2 hsplit (by omega)
      cases hm : mat q B2 with
      | none => rfl
      | some n =>
        exfalso
        obtain ⟨W, rest, hWr, hWlen, hwin⟩ := sound hm
        have hWne : W ≠ [] := (kflip hwin).1
        have hn1 : 1 ≤ W.length := by
          cases W with
          | nil => exact absurd rfl hWne
          | cons a b => simp
        have hB2' : W ++ rest = M1 ++ '<' :: ((inner ++ ['>']) ++ OUTrest) := by
          rw [← hWr, hB2, hph]
          simp
        have hWM1 : W.length ≤ M1.length :=
          prefix_stops_at_barrier hB2' classK (kclass hwin) hltc
        obtain ⟨M, hM1, hrest⟩ := split_le_left M1 _ W rest hB2'.symm hWM1
        have hM1len : B1.length + M1.length = slice.length := by
          have := congrArg List.length hsl
          simp only [List.length_append] at this
          omega
        have hB1t : B1 = slice.take B1.length := by
          have h5 : (B1 ++ M1).take B1.length = B1 := List.take_left _ _
          rw [← hsl] at h5
          exact h5.symm
        have hM1sl : M1 = sliceCL X (last + B1.length) s := by
          have h5 : (B1 ++ M1).drop B1.length = M1 := List.drop_left _ _
          rw [← hsl] at h5
          rw [← h5, hslice, sliceCL_drop_suffix X last s B1.length
            (by omega)]
        have hMlen : W.length + M.length = M1.length := by
          have := congrArg List.length hM1
          simp only [List.length_append] at this
          omega
        have hWsl : W = sliceCL X (last + B1.length)
            (last + B1.length + W.length) := by
          rw [← sliceCL_take_prefix X (last + B1.length) s W.length (by omega),
            ← hM1sl, hM1, List.take_left]
        have hMsl : M = sliceCL X (last + B1.length + W.length) s := by
          rw [← sliceCL_drop_suffix X (last + B1.length) s W.length (by omega),
            ← hM1sl, hM1, List.drop_left]
        have hXdrop : X.drop (last + B1.length) = W ++ (M ++ X.drop s) := by
          rw [drop_eq_slice_append X (last + B1.length) s (by omega) hsX,
            ← hM1sl, hM1]
          simp
        by_cases hk0 : B1.length = 0 ∧ 1 ≤ last
        · have hBf : wordAt X last = false := by
            rcases HB with h | h
            · omega
            · exact h
          have hq0 : optWord q = false := by
            rw [hq, List.length_eq_zero.mp hk0.1]
            rfl
          have hhd : W.head? = X.get? last := by
            rw [hWsl, sliceCL_head? X _ _ (by omega) (by omega), hk0.1]
            congr 1
          have := (kflip hwin).2
          rw [hq0, hhd] at this
          exact this hBf.symm
        · have hcase : 1 ≤ B1.length ∨ last = 0 := by omega
          have hpw : optWord q =
              optWord (prevO none X (last + B1.length)) := by
            rw [hq]
            conv_lhs => rw [hB1t, hslice]
            exact pwExt_take_slice X last s B1.length (by omega) hsX hcase
          -- next-character word-ness transfer or kill
          by_cases hMn : M = []
          · have hse : last + B1.length + W.length = s := by
              have h9 : M.length = 0 := by rw [hMn]; rfl
              omega
            have hrest0 : rest = '<' :: ((inner ++ ['>']) ++ OUTrest) := by
              rw [hrest, hMn]
              rfl
            have hnwY : optWord rest.head? = false := by
              rw [hrest0]
              rfl
            by_cases hws : wordAt X s = true
            · -- would need a word boundary flip that is not there
              have hprevF : optWord (prevO none X s) = false := by
                rcases Bool.eq_false_or_eq_true (optWord (prevO none X s))
                  with hx | hx
                · exact absurd (hx.trans hws.symm) hma
                · exact hx
              have hwin0 : Window (optWord q) W false := by
                rw [← hnwY]
                exact hwin
              obtain ⟨cl, hgl, hclw⟩ := klastw hwin0
              have hglX : X.get? (s - 1) = some cl := by
                have hwl : W.get? (W.length - 1) = some cl := by
                  rw [List.get?_eq_getElem?, ← List.getLast?_eq_getElem?]
                  exact hgl
                have hwl2 : (sliceCL X (last + B1.length)
                    (last + B1.length + W.length)).get? (W.length - 1) =
                    some cl := by
                  rw [← hWsl]
                  exact hwl
                rw [sliceCL_get? X _ _ _ (by omega)] at hwl2
                rw [← hwl2]
                congr 1
                omega
              have hT : optWord (prevO none X s) = true := by
                simp only [prevO, if_neg (by omega : ¬ s = 0)]
                rw [hglX]
                exact hclw
              rw [hT] at hprevF
              cases hprevF
            · have hnwX : optWord (M ++ X.drop s).head? = false := by
                rw [hMn]
                simp only [List.nil_append, head?_drop_get?]
                exact Bool.not_eq_true _ ▸ hws
              have hwinX : Window (optWord (prevO none X (last + B1.length)))
                  W (optWord (M ++ X.drop s).head?) := by
                rw [← hpw, hnwX, ← hnwY]
                exact hwin
              obtain ⟨k, hk⟩ := complete hwinX
              rw [← hXdrop] at hk
              have hfail := HX (last + B1.length) (by omega) (by
                intro ⟨mm, hmem, hc1, hc2⟩
                rcases List.mem_cons.mp hmem with rfl | hmem'
                · simp at hc1
                  omega
                · have := spansOK_mem h4 mm hmem'
                  omega)
              rw [hfail] at hk
              cases hk
          · have hnweq : optWord rest.head? =
                optWord (M ++ X.drop s).head? := by
              rw [hrest, head?_append_ne M _ hMn, head?_append_ne M _ hMn]
            have hwinX : Window (optWord (prevO none X (last + B1.length)))
                W (optWord (M ++ X.drop s).head?) := by
              rw [← hpw, ← hnweq]
              exact hwin
            obtain ⟨k, hk⟩ := complete hwinX
            rw [← hXdrop] at hk
            have hfail := HX (last + B1.length) (by omega) (by
              intro ⟨mm, hmem, hc1, hc2⟩
              rcases List.mem_cons.mp hmem with rfl | hmem'
              · simp at hc1
                omega
              · have := spansOK_mem h4 mm hmem'
                omega)
            rw [hfail] at hk
            cases hk
    · by_cases hBp : B1.length < slice.length + PH.length
      · -- split inside the placeholder
        rw [List.append_assoc] at hsplit
        obtain ⟨M1, hB1e, hPHr⟩ :=
          split_ge_left slice (PH ++ OUTrest) B1 B2 hsplit (by omega)
        have hM1len : B1.length = slice.length + M1.length := by
          have := congrArg List.length hB1e
          simp only [List.length_append] at this
          omega
        obtain ⟨M2, hPHe, hB2e⟩ :=
          split_le_left PH OUTrest M1 B2 hPHr (by omega)
        cases hm : mat q B2 with
        | none => rfl
        | some n =>
          exfalso
          obtain ⟨W, rest, hWr, hWlen, hwin⟩ := sound hm
          have hWne : W ≠ [] := (kflip hwin).1
          have hclW : AllClass classK W := kclass hwin
          cases hM1c : M1 with
          | nil =>
            -- B2 starts at the '<'
            have hM2P : PH = M2 := by
              rw [hPHe, hM1c, List.nil_append]
            have hB2h : B2.head? = some '<' := by
              rw [hB2e, ← hM2P, hph]
              rfl
            have hWh : W.head? = some '<' := by
              rw [← head?_append_ne W rest hWne, ← hWr]
              exact hB2h
            cases W with
            | nil => exact hWne rfl
            | cons w0 W' =>
              have hw0 : w0 = '<' := by
                simp only [List.head?_cons, Option.some.injEq] at hWh
                exact hWh
              have hcl := hclW w0 (by simp)
              rw [hw0, hltc] at hcl
              cases hcl
          | cons m1h M1' =>
            -- B2 starts inside `inner ++ ['>']`
            have hZ : inner ++ ['>'] = M1' ++ M2 := by
              rw [hM1c, hph] at hPHe
              exact (List.cons.injEq .. ▸ hPHe :
                ('<' = m1h ∧ inner ++ ['>'] = M1' ++ M2)).2
            have hM1'len : M1'.length ≤ inner.length := by
              rw [hM1c] at hM1len
              simp only [List.length_cons] at hM1len
              rw [hPHlen] at hBp
              omega
            obtain ⟨M3, hIe, hM2e⟩ :=
              split_le_left inner ['>'] M1' M2 hZ hM1'len
            have hB2f : W ++ rest = M3 ++ '>' :: OUTrest := by
              rw [← hWr, hB2e, hM2e]
              simp
            have hWM3 : W.length ≤ M3.length :=
              prefix_stops_at_barrier hB2f classK hclW hgtc
            obtain ⟨M4, hM3e, _⟩ := split_le_left M3 _ W rest hB2f.symm hWM3
            have hWsub : ∀ c ∈ W, c ∈ inner := by
              intro c hc
              rw [hIe]
              refine List.mem_append.mpr (Or.inr ?_)
              rw [hM3e]
              exact List.mem_append.mpr (Or.inl hc)
            rcases kneed hwin with ⟨c, hcW, hcN⟩ | h32
            · have := hneedI c (hWsub c hcW)
              rw [hcN] at this
              cases this
            · have hM3len : M3.length ≤ inner.length := by
                have := congrArg List.length hIe
                simp only [List.length_append] at this
                omega
              omega
      · -- split inside the recursive tail
        push_neg at hA hBp
        rw [List.append_assoc] at hsplit
        obtain ⟨M1, hB1e, hPHr⟩ :=
          split_ge_left slice (PH ++ OUTrest) B1 B2 hsplit (by omega)
        have hM1ge : PH.length ≤ M1.length := by
          have := congrArg List.length hB1e
          simp only [List.length_append] at this
          omega
        obtain ⟨M2, hM1e, hOr⟩ := split_ge_left PH OUTrest M1 B2 hPHr hM1ge
        have hq' : optWord q = pwExt false M2 := by
          rw [hq, hB1e, hM1e, ← List.append_assoc, pwExt_append]
          have hgl : ((slice ++ PH).getLast?) = some '>' := by
            apply getLast?_glue_append
            rw [hph]
            exact getLast?_glue_cons (getLast?_glue_append inner rfl)
          simp only [pwExt, hgl]
          cases hx : M2.getLast? <;> simp only [hx] <;> rfl
        exact ih e (c0 + 1) (by omega) h4 hmrest
          (by
            intro i hi hnc
            refine HX i (by omega) ?_
            intro ⟨mm, hmem, hc1, hc2⟩
            rcases List.mem_cons.mp hmem with rfl | hmem'
            · simp at hc2
              omega
            · exact hnc ⟨mm, hmem', hc1, hc2⟩)
          (Or.inr hmc)
          (by
            intro k hk1 hk2
            exact HPH k (by omega) (by simp only [List.length_cons]; omega))
          M2 B2 hOr q hq'

/-! ## Applying the transfer theorem -/

theorem pwExt_take_self (T : List Char) (i : Nat) (hi : i ≤ T.length) :
    pwExt false (T.take i) = optWord (prevO none T i) := by
  by_cases h0 : i = 0
  · subst h0
    rfl
  · obtain ⟨c, hc⟩ := get?_isSome_of_lt T (i - 1) (by omega)
    have hgl : (T.take i).getLast? = some c := by
      rw [getLast?_take_get? T i (by omega) hi]
      exact hc
    simp only [pwExt, hgl, prevO, if_neg h0, hc]
    rfl

theorem failsAll_of_outSplice
    (mat : Option Char → List Char → Option Nat)
    (Window : Bool → List Char → Bool → Prop)
    (classK needK : Char → Bool)
    (sound : ∀ {prev : Option Char} {cs : List Char} {n : Nat},
      mat prev cs = some n →
      ∃ W rest, cs = W ++ rest ∧ W.length = n ∧
        Window (optWord prev) W (optWord rest.head?))
    (complete : ∀ {prev : Option Char} {W rest : List Char},
      Window (optWord prev) W (optWord rest.head?) →
      ∃ k, mat prev (W ++ rest) = some k)
    (kclass : ∀ {pw W nw}, Window pw W nw → AllClass classK W)
    (kneed : ∀ {pw W nw}, Window pw W nw →
      (∃ c ∈ W, needK c = true) ∨ 32 ≤ W.length)
    (kflip : ∀ {pw W nw}, Window pw W nw → W ≠ [] ∧ pw ≠ optWord W.head?)
    (klastw : ∀ {pw W}, Window pw W false →
      ∃ cl, W.getLast? = some cl ∧ isWordChar cl = true)
    (hltc : classK '<' = false) (hgtc : classK '>' = false)
    (hnil : ∀ p, mat p [] = none)
    (X repl : List Char) (stable : Bool) (ms : List (Nat × Nat))
    (hSP : SpansOK 0 X.length ms)
    (hME : MatchEdges X ms)
    (HX : ∀ i, ¬ Covers ms i → mat (prevO none X i) (X.drop i) = none)
    (HPH : ∀ k, 0 < k → k ≤ ms.length →
      ∃ inner, phText repl stable k = '<' :: (inner ++ ['>']) ∧
        (∀ c ∈ inner, needK c = false) ∧ inner.length < 32) :
    FailsAll mat (outSplice X repl stable ms 0 0) := by
  intro i
  by_cases hiT : (outSplice X repl stable ms 0 0).length ≤ i
  · rw [List.drop_eq_nil_of_le hiT]
    exact hnil _
  · push_neg at hiT
    exact outSplice_noK mat Window classK needK
      (fun h => sound h) (fun h => complete h)
      (fun h => kclass h) (fun h => kneed h) (fun h => kflip h)
      (fun h => klastw h) hltc hgtc X repl stable ms 0 0
      (Nat.zero_le _) hSP hME (fun i _ h => HX i h) (Or.inl rfl)
      (by simpa using HPH)
      ((outSplice X repl stable ms 0 0).take i)
      ((outSplice X repl stable ms 0 0).drop i)
      (List.take_append_drop _ _).symm
      (prevO none (outSplice X repl stable ms 0 0) i)
      (pwExt_take_self _ i (by omega)).symm

/-! ## The splice functions produce `outSplice` texts -/

theorem digit_ne_at (c : Char) (h : isDigitC c = true) : (c == '@') = false := by
  by_contra hne
  have : c = '@' := by
    have := eq_of_beq (by
      cases hb : c == '@'
      · exact absurd hb hne
      · rfl)
    exact this
  rw [this] at h
  exact absurd h (by decide)

theorem digit_ne_dot (c : Char) (h : isDigitC c = true) : (c == '.') = false := by
  by_contra hne
  have : c = '.' := eq_of_beq (by
    cases hb : c == '.'
    · exact absurd hb hne
    · rfl)
  rw [this] at h
  exact absurd h (by decide)

theorem digit_ne_dash (c : Char) (h : isDigitC c = true) : (c == '-') = false := by
  by_contra hne
  have : c = '-' := eq_of_beq (by
    cases hb : c == '-'
    · exact absurd hb hne
    · rfl)
  rw [this] at h
  exact absurd h (by decide)

theorem outSplice_fails_token
    (X repl : List Char) (st : Bool) (ms : List (Nat × Nat))
    (hSP : SpansOK 0 X.length ms) (hME : MatchEdges X ms)
    (HX : ∀ i, ¬ Covers ms i → tokenAt (prevO none X i) (X.drop i) = none)
    (HPH : ∀ k, 0 < k → k ≤ ms.length →
      ∃ inner, phText repl st k = '<' :: (inner ++ ['>']) ∧
        (∀ c ∈ inner, isWordChar c = true) ∧ inner.length ≤ 30) :
    FailsAll tokenAt (outSplice X repl st ms 0 0) := by
  apply failsAll_of_outSplice tokenAt TokWindow isB64 (fun _ => false)
    (fun h => by
      obtain ⟨W, rest, h1, h2, h3, -⟩ := tokenAt_sound h
      exact ⟨W, rest, h1, h2, h3⟩)
    (fun h => tokenAt_complete h)
    (fun h => tokWindow_class h)
    (fun h => Or.inr h.1)
    (fun h => ⟨tokWindow_ne_nil h, tokWindow_flip h⟩)
    (fun h => tokWindow_lastw h)
    (by decide) (by decide)
    tokenAt_nil2
    X repl st ms hSP hME HX
    (fun k h1 h2 => by
      obtain ⟨inner, hsh, hword, hlen⟩ := HPH k h1 h2
      exact ⟨inner, hsh, fun c hc => rfl, by omega⟩)

end Scrubby
